import Mathlib

/-!
Verification of the datastar cleanup mechanism (on-cleanup plugin repository).

The repository consists of the plugin `on-cleanup.ts` together with
`CLEANUP_MECHANISM_ANALYSIS.md`, which carries the authoritative excerpts of
the engine code the plugin relies on:

* the cleanup registry `removals : Map<HTMLOrSVG, Map<string, () => void>>`
  (engine.ts:54);
* the registration block run after a plugin's `apply` returns
  (engine.ts:281-291);
* `cleanupEls` (engine.ts:104-115);
* the MutationObserver childList handler (engine.ts:145-151);
* the data-attribute removal handler (engine.ts:159-177);
* `removeNode` of the morphing engine (morph.ts:271-278).

The embedding below models DOM elements by numeric identities, inner JS `Map`
objects by heap references (so that JS reference/aliasing semantics of the
registry are preserved), teardown callables by a small syntax of behaviours
(return normally while releasing a resource, throw, or synchronously
re-register a cleanup), and arbitrary JS return values of `apply` by `JSVal`
so that the engine's truthiness test is modelled exactly.  Every observable
effect (a teardown body running, a plugin setup routine running, the registry
storing a teardown) is recorded in an event trace.
-/

namespace DatastarCleanup

mutual

/-- A teardown callable's behaviour: `pure i` releases resource `i` and
returns; `thrower i` throws exception `i`; `reg el key v` synchronously
re-registers cleanup value `v` for `(el, key)` through the engine's
registration block (the re-entrant case of §4.1/§7 of the spec). -/
inductive Td : Type where
  | pure (i : Nat) : Td
  | thrower (i : Nat) : Td
  | reg (el : Nat) (key : String) (v : JSVal) : Td

/-- A JavaScript value as far as the engine observes it: the registration
block tests the value returned by `plugin.apply` only for truthiness. -/
inductive JSVal : Type where
  | undef : JSVal
  | null : JSVal
  | bool (b : Bool) : JSVal
  | num (n : Int) : JSVal
  | str (s : String) : JSVal
  | fn (t : Td) : JSVal
  | obj : JSVal
end

/-- JavaScript truthiness: `undefined`, `null`, `false`, `0` and the empty
string are falsy, every other value (object, function, ...) is truthy. -/
def truthy : JSVal → Bool
  | .undef => false
  | .null => false
  | .bool b => b
  | .num n => decide (n ≠ 0)
  | .str s => decide (s ≠ "")
  | .fn _ => true
  | .obj => true

/-- Contents of one inner `Map<string, () => void>` of the registry. -/
abbrev Inner := List (String × JSVal)

/-- Observable events: a teardown body running (`invoked`), a plugin setup
routine running (`setupRun`), the registration block storing a teardown
(`stored`). -/
inductive Ev where
  | invoked (i : Nat) : Ev
  | setupRun (i : Nat) : Ev
  | stored (el : Nat) (key : String) : Ev
  deriving DecidableEq

/-- The engine state: `removals` maps an element identity to the reference of
its inner `Map` object, `heap` gives each `Map` object's contents (JS `Map`s
are mutable objects, so aliasing matters), `nextRef` is the next fresh `Map`
reference, `events` is the observable trace. -/
structure St where
  removals : List (Nat × Nat)
  heap : List (Nat × Inner)
  nextRef : Nat
  events : List Ev

/-- Association-list lookup (JS `Map.get`). -/
def alookup {α β : Type} [DecidableEq α] : List (α × β) → α → Option β
  | [], _ => none
  | (a, b) :: r, k => if a = k then some b else alookup r k

/-- Association-list update (JS `Map.set`): replace the entry if the key is
present, otherwise append a new entry. -/
def aset {α β : Type} [DecidableEq α] : List (α × β) → α → β → List (α × β)
  | [], k, v => [(k, v)]
  | (a, b) :: r, k, v => if a = k then (k, v) :: r else (a, b) :: aset r k v

/-- Association-list deletion (JS `Map.delete`). -/
def adel {α β : Type} [DecidableEq α] : List (α × β) → α → List (α × β)
  | [], _ => []
  | (a, b) :: r, k => if a = k then r else (a, b) :: adel r k

/-- Dereference an inner-`Map` object (an absent reference behaves as an
empty map). -/
def hGet (h : List (Nat × Inner)) (r : Nat) : Inner := (alookup h r).getD []

/-- JS exceptions: one thrown by a teardown body, or the `TypeError` raised
when a stored non-callable truthy value is called. -/
inductive Exc where
  | userExn (i : Nat) : Exc
  | typeError : Exc
  deriving DecidableEq

/-- Result of running engine code: normal return, a propagating exception
(with the state at the point of the throw), or call-depth fuel exhausted. -/
inductive Res where
  | ok (s : St) : Res
  | exn (e : Exc) (s : St) : Res
  | out : Res

/-- One call the interpreter can perform: call a JS value, run a teardown
body, or run the registration block (engine.ts:282-290, the part guarded by
`if (cleanup)` together with that guard). -/
inductive Call where
  | val (v : JSVal) : Call
  | td (t : Td) : Call
  | rcg (el : Nat) (key : String) (v : JSVal) : Call

/-- Fueled interpreter for calls.  Fuel bounds the synchronous call depth
(the source has no such bound; a teardown chain that re-enters registration
forever would simply not terminate in JS).

The `rcg` case is the registration block (engine.ts:281-291):

  const cleanup = plugin.apply(ctx)     -- `v` is this result
  if (cleanup) {
    let cleanups = removals.get(el)
    if (cleanups) {
      cleanups.get(rawKey)?.()          -- run previous cleanup if it exists
    } else {
      cleanups = new Map()
      removals.set(el, cleanups)
    }
    cleanups.set(rawKey, cleanup)
  }

Note that `cleanups.set` writes into the same `Map` object that was looked
up (reference `ref`), whatever the previous cleanup did to `removals`. -/
def interp : Nat → Call → St → Res
  | 0, _, _ => .out
  | fuel + 1, .val v, s =>
    match v with
    | .fn t => interp fuel (.td t) s
    | _ => .exn .typeError s
  | fuel + 1, .td t, s =>
    match t with
    | .pure i => .ok { s with events := s.events ++ [.invoked i] }
    | .thrower i => .exn (.userExn i) s
    | .reg el key v => interp fuel (.rcg el key v) s
  | fuel + 1, .rcg el key v, s =>
    if truthy v then
      match alookup s.removals el with
      | some ref =>
        match alookup (hGet s.heap ref) key with
        | some old =>
          match interp fuel (.val old) s with
          | .ok s' =>
            .ok { s' with
                  heap := aset s'.heap ref (aset (hGet s'.heap ref) key v),
                  events := s'.events ++ [.stored el key] }
          | r => r
        | none =>
          .ok { s with
                heap := aset s.heap ref (aset (hGet s.heap ref) key v),
                events := s.events ++ [.stored el key] }
      | none =>
        .ok { s with
              removals := aset s.removals el s.nextRef,
              heap := aset s.heap s.nextRef [(key, v)],
              nextRef := s.nextRef + 1,
              events := s.events ++ [.stored el key] }
    else .ok s

/-- Call a JS value as a zero-argument function. -/
def invokeVal (fuel : Nat) (v : JSVal) (s : St) : Res := interp fuel (.val v) s

/-- The registration block (engine.ts:281-291) applied to the result `v` of a
plugin's `apply`. -/
def registerCleanup (fuel : Nat) (el : Nat) (rawKey : String) (v : JSVal)
    (s : St) : Res :=
  interp fuel (.rcg el rawKey v) s

/-- `const cleanup = plugin.apply(ctx)` followed by the registration block:
the setup routine (identified by `sid`) runs first and produces `ret`. -/
def applyPlugin (fuel : Nat) (el : Nat) (rawKey : String) (sid : Nat)
    (ret : JSVal) (s : St) : Res :=
  registerCleanup fuel el rawKey ret
    { s with events := s.events ++ [.setupRun sid] }

/-- Run the values of one inner map in iteration order, stopping at the first
propagating exception (the loop body of `cleanupEls` has no try/catch). -/
def runInner (fuel : Nat) : Inner → St → Res
  | [], s => .ok s
  | (_, v) :: rest, s =>
    match invokeVal fuel v s with
    | .ok s' => runInner fuel rest s'
    | r => r

/-- Embedding of `cleanupEls` (engine.ts:104-115):

  for (const el of els) {
    const cleanups = removals.get(el)
    if (removals.delete(el)) {
      for (const cleanup of cleanups!.values()) { cleanup() }
      cleanups!.clear()
    }
  }

The element is removed from the outer map before its teardowns run; the
final `clear()` empties the (now detached) inner `Map` object. -/
def cleanupEls (fuel : Nat) : List Nat → St → Res
  | [], s => .ok s
  | el :: rest, s =>
    match alookup s.removals el with
    | none => cleanupEls fuel rest s
    | some ref =>
      let cleanups := hGet s.heap ref
      let s1 : St := { s with removals := adel s.removals el }
      match runInner fuel cleanups s1 with
      | .ok s2 => cleanupEls fuel rest { s2 with heap := aset s2.heap ref [] }
      | r => r

/-- A DOM node observed in a childList removal record: its element identity
together with `node.querySelectorAll('*')`, the identities of all its
element descendants in document order. -/
structure RemovedNode where
  id : Nat
  descs : List Nat

/-- Embedding of the childList branch of the MutationObserver callback
(engine.ts:145-151) for one removed element node:

  cleanupEls([node])
  cleanupEls(node.querySelectorAll('*'))
-/
def onChildListRemoved (fuel : Nat) (n : RemovedNode) (s : St) : Res :=
  match cleanupEls fuel [n.id] s with
  | .ok s' => cleanupEls fuel n.descs s'
  | r => r

/-- `s.startsWith(p)` on the character lists underlying the strings. -/
def strStartsWith (s p : String) : Bool :=
  decide (s.data.take p.data.length = p.data)

/-- `s.slice(n)` on the character list underlying the string. -/
def strDrop (s : String) (n : Nat) : String := ⟨s.data.drop n⟩

/-- Embedding of the attribute branch of the MutationObserver callback
(engine.ts:159-177):

  if (type === 'attributes' && attributeName!.startsWith('data-')) {
    const key = attributeName!.slice(5)
    const value = target.getAttribute(attributeName!)
    if (value === null) {
      const cleanups = removals.get(target)
      if (cleanups) {
        cleanups.get(key)?.()
        cleanups.delete(key)
      }
    }
  }

`newValue` is the current value of the attribute (`none` when it was
removed).  Note that the outer `removals` entry is never deleted here, and
that `cleanups.delete(key)` is skipped when the teardown throws. -/
def onAttrChanged (fuel : Nat) (target : Nat) (attributeName : String)
    (newValue : Option String) (s : St) : Res :=
  if strStartsWith attributeName "data-" then
    let key := strDrop attributeName 5
    match newValue with
    | none =>
      match alookup s.removals target with
      | some ref =>
        match alookup (hGet s.heap ref) key with
        | some old =>
          match invokeVal fuel old s with
          | .ok s' =>
            .ok { s' with heap := aset s'.heap ref (adel (hGet s'.heap ref) key) }
          | r => r
        | none =>
          .ok { s with heap := aset s.heap ref (adel (hGet s.heap ref) key) }
      | none => .ok s
    | some _ => .ok s
  else .ok s

/-- Where `removeNode` put the node. -/
inductive Dest where
  | pantry : Dest
  | removedFromDom : Dest
  deriving DecidableEq

/-- Embedding of `removeNode` (morph.ts:271-278):

  const removeNode = (node) => {
    ctxIdMap.has(node)
      ? moveBefore(ctxPantry, node, null)   -- move to pantry (NO cleanup)
      : node.parentNode?.removeChild(node)  -- remove (triggers cleanup)
  }

`inIdMap` is `ctxIdMap.has(node)` (the node carries a persistent identity
present in both trees).  The pantry move keeps the node attached and fires
no removal record; `removeChild` is observed by the MutationObserver and
processed by the childList handler. -/
def removeNode (fuel : Nat) (inIdMap : Bool) (n : RemovedNode) (s : St) :
    Dest × Res :=
  if inIdMap then (Dest.pantry, .ok s)
  else (Dest.removedFromDom, onChildListRemoved fuel n s)

/-- An operation of the subsystem's surface, for quantifying over "any later
operation": a plugin application for an attribute, a subtree removal, an
attribute mutation record, or a morph-engine node removal. -/
inductive Op where
  | applyAttr (el : Nat) (rawKey : String) (sid : Nat) (ret : JSVal) : Op
  | removeSubtree (n : RemovedNode) : Op
  | attrChanged (target : Nat) (name : String) (value : Option String) : Op
  | morphRemove (inIdMap : Bool) (n : RemovedNode) : Op

/-- Dispatch one operation. -/
def runOp (fuel : Nat) (op : Op) (s : St) : Res :=
  match op with
  | .applyAttr el k sid ret => applyPlugin fuel el k sid ret s
  | .removeSubtree n => onChildListRemoved fuel n s
  | .attrChanged tg nm v => onAttrChanged fuel tg nm v s
  | .morphRemove b n => (removeNode fuel b n s).2

/-- Run a sequence of operations, stopping at a propagating exception. -/
def runOps (fuel : Nat) : List Op → St → Res
  | [], s => .ok s
  | op :: rest, s =>
    match runOp fuel op s with
    | .ok s' => runOps fuel rest s'
    | r => r

/-! ### The on-cleanup plugin's callback (on-cleanup.ts:55-66) -/

/-- Events of the signal-batching interface as seen by the plugin callback. -/
inductive CbEv where
  | beganBatch : CbEv
  | ranRx : CbEv
  | endedBatch : CbEv
  deriving DecidableEq

/-- Reactive-engine state visible to the callback: the current batch nesting
depth and the trace of calls made. -/
structure SigSt where
  depth : Nat
  trace : List CbEv

/-- The statements of the callback body. -/
inductive CbStmt where
  | callBeginBatch : CbStmt
  | callRx : CbStmt
  | callEndBatch : CbStmt

/-- The body of the callback returned by the on-cleanup plugin's `apply`:

  const callback = () => {
    beginBatch()
    rx()
    endBatch()
  }
-/
def onCleanupBody : List CbStmt := [.callBeginBatch, .callRx, .callEndBatch]

/-- Execute one statement.  `rxThrows` is the behaviour of the user
expression `rx`: `none` means it returns normally, `some e` means it throws
exception `e`.  `beginBatch` opens a batch, `endBatch` closes one. -/
def execCbStmt (rxThrows : Option Nat) : CbStmt → SigSt → SigSt × Option Nat
  | .callBeginBatch, s =>
    ({ depth := s.depth + 1, trace := s.trace ++ [.beganBatch] }, none)
  | .callRx, s =>
    ({ s with trace := s.trace ++ [.ranRx] }, rxThrows)
  | .callEndBatch, s =>
    ({ depth := s.depth - 1, trace := s.trace ++ [.endedBatch] }, none)

/-- Execute statements in order; an exception aborts the rest of the body and
propagates (the callback has no try/finally). -/
def execCbStmts (rxThrows : Option Nat) : List CbStmt → SigSt → SigSt × Option Nat
  | [], s => (s, none)
  | st :: rest, s =>
    match execCbStmt rxThrows st s with
    | (s', none) => execCbStmts rxThrows rest s'
    | (s', some e) => (s', some e)

/-- One invocation of the teardown callback produced by the on-cleanup
plugin. -/
def onCleanupCallback (rxThrows : Option Nat) (s : SigSt) : SigSt × Option Nat :=
  execCbStmts rxThrows onCleanupBody s

/-! ### Derived notions used in the statements -/

/-- Well-formedness of a reachable engine state: element keys and map
references of the outer map are without duplicates (each element has one
inner `Map` object and distinct elements have distinct `Map` objects), heap
references are unambiguous, inner maps have duplicate-free keys, and every
reference already in use is below the allocation counter. -/
def wfSt (s : St) : Prop :=
  (s.removals.map Prod.fst).Nodup ∧
  (s.removals.map Prod.snd).Nodup ∧
  (s.heap.map Prod.fst).Nodup ∧
  (∀ p ∈ s.heap, (p.2.map Prod.fst).Nodup) ∧
  (∀ p ∈ s.removals, p.2 < s.nextRef) ∧
  (∀ p ∈ s.heap, p.1 < s.nextRef)

instance (s : St) : Decidable (wfSt s) := by
  unfold wfSt
  infer_instance

/-- A stored value that is a plain resource-releasing teardown. -/
def isPureFn : JSVal → Bool
  | .fn (.pure _) => true
  | _ => false

/-- The resource identifier of a plain teardown (junk on other values). -/
def pureId : JSVal → Nat
  | .fn (.pure i) => i
  | _ => 0

/-- All teardowns of an inner map are plain resource-releasing ones. -/
def innerAllPure (inner : Inner) : Bool := inner.all fun kv => isPureFn kv.2

/-- The resource identifiers stored in an inner map, in iteration order. -/
def innerIds (inner : Inner) : List Nat := inner.map fun kv => pureId kv.2

/-- The resource identifiers registered for one element. -/
def entryIds (s : St) (el : Nat) : List Nat :=
  match alookup s.removals el with
  | some ref => innerIds (hGet s.heap ref)
  | none => []

/-- Every teardown registered for `el` (if any) is a plain one. -/
def elPure (s : St) (el : Nat) : Bool :=
  match alookup s.removals el with
  | some ref => innerAllPure (hGet s.heap ref)
  | none => true

/-- The resource identifiers registered for a list of elements, in order. -/
def subtreeIds (s : St) : List Nat → List Nat
  | [] => []
  | x :: r => entryIds s x ++ subtreeIds s r

mutual

/-- Number of occurrences of teardown identifier `i` inside a JS value. -/
def countIdVal (i : Nat) : JSVal → Nat
  | .fn t => countIdTd i t
  | _ => 0

/-- Number of occurrences of teardown identifier `i` inside a teardown. -/
def countIdTd (i : Nat) : Td → Nat
  | .pure j => if j = i then 1 else 0
  | .thrower j => if j = i then 1 else 0
  | .reg _ _ v => countIdVal i v

end

/-- Occurrences of identifier `i` in an inner map's stored values. -/
def countIdInner (i : Nat) : Inner → Nat
  | [] => 0
  | kv :: r => countIdVal i kv.2 + countIdInner i r

/-- Occurrences of identifier `i` anywhere in the heap of inner maps. -/
def countIdHeap (i : Nat) : List (Nat × Inner) → Nat
  | [] => 0
  | p :: r => countIdInner i p.2 + countIdHeap i r

/-- Occurrences of identifier `i` in the teardown value an operation can
introduce (only a plugin application introduces new teardowns). -/
def countIdOp (i : Nat) : Op → Nat
  | .applyAttr _ _ _ ret => countIdVal i ret
  | _ => 0

/-- Occurrences of identifier `i` introduced by a list of operations. -/
def countIdOps (i : Nat) : List Op → Nat
  | [] => 0
  | op :: r => countIdOp i op + countIdOps i r

/-- How often the teardown with identifier `i` has run so far. -/
def evCount (i : Nat) (s : St) : Nat := s.events.count (Ev.invoked i)

/-- Occurrences of identifier `i` in the argument of a call. -/
def callCount (i : Nat) : Call → Nat
  | .val v => countIdVal i v
  | .td t => countIdTd i t
  | .rcg _ _ v => countIdVal i v

/-- Relation between the state before and after a piece of engine code ran:
the allocation counter is monotone, well-formedness is preserved, and — if
identifier `i` occurs neither in the argument (`n = 0`) nor anywhere in the
heap — it still does not occur in the heap and its teardown has not run. -/
def KeepSt (i n : Nat) (s s' : St) : Prop :=
  s.nextRef ≤ s'.nextRef ∧
  (wfSt s → wfSt s') ∧
  (n = 0 → countIdHeap i s.heap = 0 →
    countIdHeap i s'.heap = 0 ∧ evCount i s' = evCount i s)

/-- `KeepSt` holding for the state a run ends in, whether it returns or
throws. -/
def StepOk (i n : Nat) (s : St) : Res → Prop
  | .ok s' => KeepSt i n s s'
  | .exn _ s' => KeepSt i n s s'
  | .out => True

/-! ### Concrete states used in counterexamples and witnesses -/

/-- Element 1 carries two entries, its descendants 2 and 3 carry one and
zero entries, unrelated element 4 carries one entry. -/
def stTree : St :=
  { removals := [(1, 10), (2, 11), (4, 12)],
    heap := [(10, [("a", .fn (.pure 1)), ("b", .fn (.pure 2))]),
             (11, [("c", .fn (.pure 3))]),
             (12, [("d", .fn (.pure 4))])],
    nextRef := 13,
    events := [] }

/-- The removed node for the concrete subtree scenarios. -/
def ndTree : RemovedNode := { id := 1, descs := [2, 3] }

/-- Element 1 has one registered teardown (identifier 7) under key "k". -/
def stReplace : St :=
  { removals := [(1, 0)],
    heap := [(0, [("k", .fn (.pure 7))])],
    nextRef := 1,
    events := [] }

/-- Element 5 has a throwing teardown under "a" followed by a plain one
under "b". -/
def stThrow : St :=
  { removals := [(5, 0)],
    heap := [(0, [("a", .fn (.thrower 3)), ("b", .fn (.pure 4))])],
    nextRef := 1,
    events := [] }

/-- Element 2's middle teardown re-registers a new cleanup (identifier 99)
for element 2 under key "n" while element 2 is being cleared. -/
def stReent : St :=
  { removals := [(2, 0)],
    heap := [(0, [("p", .fn (.pure 11)),
                  ("q", .fn (.reg 2 "n" (.fn (.pure 99)))),
                  ("r", .fn (.pure 12))])],
    nextRef := 1,
    events := [] }

/-- Element 1 has entries for keys "a", "b", "c"; element 2 has one entry. -/
def stMulti : St :=
  { removals := [(1, 0), (2, 1)],
    heap := [(0, [("a", .fn (.pure 1)), ("b", .fn (.pure 2)),
                  ("c", .fn (.pure 3))]),
             (1, [("z", .fn (.pure 9))])],
    nextRef := 2,
    events := [] }

/-- Element 7 has exactly one entry, under key "x". -/
def stOne : St :=
  { removals := [(7, 0)],
    heap := [(0, [("x", .fn (.pure 1))])],
    nextRef := 1,
    events := [] }

/-! ### Association-list lemmas -/

theorem alookup_cons {α β : Type} [DecidableEq α] (a : α) (b : β)
    (r : List (α × β)) (k : α) :
    alookup ((a, b) :: r) k = if a = k then some b else alookup r k := rfl

theorem aset_cons {α β : Type} [DecidableEq α] (a : α) (b : β)
    (r : List (α × β)) (k : α) (v : β) :
    aset ((a, b) :: r) k v =
      if a = k then (k, v) :: r else (a, b) :: aset r k v := rfl

theorem adel_cons {α β : Type} [DecidableEq α] (a : α) (b : β)
    (r : List (α × β)) (k : α) :
    adel ((a, b) :: r) k = if a = k then r else (a, b) :: adel r k := rfl

theorem alookup_aset_self {α β : Type} [DecidableEq α] (l : List (α × β))
    (k : α) (v : β) : alookup (aset l k v) k = some v := by
  induction l with
  | nil => simp [aset, alookup]
  | cons p r ih =>
    obtain ⟨a, b⟩ := p
    by_cases h : a = k
    · simp [aset_cons, h, alookup_cons]
    · simp [aset_cons, h, alookup_cons, ih]

theorem alookup_aset_ne {α β : Type} [DecidableEq α] (l : List (α × β))
    (k k' : α) (v : β) (h : k' ≠ k) :
    alookup (aset l k v) k' = alookup l k' := by
  induction l with
  | nil => simp [aset, alookup_cons, alookup, Ne.symm h]
  | cons p r ih =>
    obtain ⟨a, b⟩ := p
    by_cases ha : a = k
    · subst ha
      simp [aset_cons, alookup_cons, Ne.symm h]
    · simp only [aset_cons, if_neg ha, alookup_cons, ih]

theorem alookup_adel_ne {α β : Type} [DecidableEq α] (l : List (α × β))
    (k k' : α) (h : k' ≠ k) : alookup (adel l k) k' = alookup l k' := by
  induction l with
  | nil => simp [adel]
  | cons p r ih =>
    obtain ⟨a, b⟩ := p
    by_cases ha : a = k
    · subst ha
      simp [adel_cons, alookup_cons, Ne.symm h]
    · simp only [adel_cons, if_neg ha, alookup_cons, ih]

theorem adel_sublist {α β : Type} [DecidableEq α] (l : List (α × β)) (k : α) :
    List.Sublist (adel l k) l := by
  induction l with
  | nil => simp [adel]
  | cons p r ih =>
    obtain ⟨a, b⟩ := p
    by_cases ha : a = k
    · simp [adel_cons, ha]
    · simpa [adel_cons, ha] using List.Sublist.cons₂ (a, b) ih

theorem alookup_eq_none {α β : Type} [DecidableEq α] (l : List (α × β))
    (k : α) : alookup l k = none ↔ k ∉ l.map Prod.fst := by
  induction l with
  | nil => simp [alookup]
  | cons p r ih =>
    obtain ⟨a, b⟩ := p
    by_cases ha : a = k
    · simp [alookup_cons, ha]
    · simp [alookup_cons, ha, ih, Ne.symm ha]

theorem alookup_adel_self {α β : Type} [DecidableEq α] (l : List (α × β))
    (k : α) (h : (l.map Prod.fst).Nodup) : alookup (adel l k) k = none := by
  induction l with
  | nil => simp [adel, alookup]
  | cons p r ih =>
    obtain ⟨a, b⟩ := p
    simp only [List.map_cons, List.nodup_cons] at h
    by_cases ha : a = k
    · subst ha
      simp only [adel_cons, if_pos rfl]
      exact (alookup_eq_none r a).mpr h.1
    · simp [adel_cons, ha, alookup_cons, ih h.2]

theorem alookup_mem {α β : Type} [DecidableEq α] (l : List (α × β))
    (k : α) (v : β) (h : alookup l k = some v) : (k, v) ∈ l := by
  induction l with
  | nil => simp [alookup] at h
  | cons p r ih =>
    obtain ⟨a, b⟩ := p
    by_cases ha : a = k
    · subst ha
      rw [alookup_cons, if_pos rfl] at h
      cases h
      exact List.mem_cons_self _ _
    · rw [alookup_cons, if_neg ha] at h
      exact List.mem_cons_of_mem _ (ih h)

theorem map_fst_aset {α β : Type} [DecidableEq α] (l : List (α × β))
    (k : α) (v : β) :
    (aset l k v).map Prod.fst =
      if k ∈ l.map Prod.fst then l.map Prod.fst else l.map Prod.fst ++ [k] := by
  induction l with
  | nil => simp [aset]
  | cons p r ih =>
    obtain ⟨a, b⟩ := p
    by_cases ha : a = k
    · simp [aset_cons, ha]
    · simp only [aset_cons, if_neg ha, List.map_cons, ih, List.mem_cons]
      by_cases hm : k ∈ r.map Prod.fst
      · simp [hm, Ne.symm ha]
      · simp [hm, Ne.symm ha]

theorem nodup_fst_aset {α β : Type} [DecidableEq α] (l : List (α × β))
    (k : α) (v : β) (h : (l.map Prod.fst).Nodup) :
    ((aset l k v).map Prod.fst).Nodup := by
  rw [map_fst_aset]
  by_cases hm : k ∈ l.map Prod.fst
  · simpa [hm] using h
  · simp only [hm, if_false]
    exact List.Nodup.append h (List.nodup_singleton k) (by simpa using hm)

theorem aset_of_alookup_none {α β : Type} [DecidableEq α] (l : List (α × β))
    (k : α) (v : β) (h : alookup l k = none) : aset l k v = l ++ [(k, v)] := by
  induction l with
  | nil => simp [aset]
  | cons p r ih =>
    obtain ⟨a, b⟩ := p
    by_cases ha : a = k
    · simp [alookup_cons, ha] at h
    · rw [alookup_cons, if_neg ha] at h
      simp [aset_cons, ha, ih h]

theorem mem_aset {α β : Type} [DecidableEq α] (l : List (α × β)) (k : α)
    (v : β) (p : α × β) (h : p ∈ aset l k v) : p = (k, v) ∨ p ∈ l := by
  induction l with
  | nil => simpa [aset] using h
  | cons q r ih =>
    obtain ⟨a, b⟩ := q
    by_cases ha : a = k
    · rw [aset_cons, if_pos ha] at h
      rcases List.mem_cons.mp h with h' | h'
      · exact Or.inl h'
      · exact Or.inr (List.mem_cons_of_mem _ h')
    · rw [aset_cons, if_neg ha] at h
      rcases List.mem_cons.mp h with h' | h'
      · exact Or.inr (by simp [h'])
      · rcases ih h' with h'' | h''
        · exact Or.inl h''
        · exact Or.inr (List.mem_cons_of_mem _ h'')

theorem nodup_snd_inj {α β : Type} (l : List (α × β))
    (h : (l.map Prod.snd).Nodup) (k1 k2 : α) (v : β)
    (h1 : (k1, v) ∈ l) (h2 : (k2, v) ∈ l) : k1 = k2 := by
  induction l with
  | nil => simp at h1
  | cons p r ih =>
    obtain ⟨a, b⟩ := p
    simp only [List.map_cons, List.nodup_cons] at h
    rcases List.mem_cons.mp h1 with e1 | e1 <;>
      rcases List.mem_cons.mp h2 with e2 | e2
    · rw [Prod.mk.injEq] at e1 e2
      rw [e1.1, e2.1]
    · exfalso
      apply h.1
      cases e1
      exact List.mem_map.mpr ⟨(k2, v), e2, rfl⟩
    · exfalso
      apply h.1
      cases e2
      exact List.mem_map.mpr ⟨(k1, v), e1, rfl⟩
    · exact ih h.2 e1 e2

theorem hGet_aset_ne (h : List (Nat × Inner)) (r r' : Nat) (inner : Inner)
    (hne : r' ≠ r) : hGet (aset h r inner) r' = hGet h r' := by
  unfold hGet
  rw [alookup_aset_ne _ _ _ _ hne]

theorem hGet_aset_self (h : List (Nat × Inner)) (r : Nat) (inner : Inner) :
    hGet (aset h r inner) r = inner := by
  unfold hGet
  rw [alookup_aset_self]
  rfl

theorem entryIds_congr (sa sb : St) (x : Nat)
    (hr : alookup sa.removals x = alookup sb.removals x)
    (hh : ∀ r', alookup sb.removals x = some r' →
      hGet sa.heap r' = hGet sb.heap r') :
    entryIds sa x = entryIds sb x := by
  unfold entryIds
  rw [hr]
  cases hlk : alookup sb.removals x with
  | none => rfl
  | some r' =>
    show innerIds (hGet sa.heap r') = innerIds (hGet sb.heap r')
    rw [hh r' hlk]

theorem elPure_congr (sa sb : St) (x : Nat)
    (hr : alookup sa.removals x = alookup sb.removals x)
    (hh : ∀ r', alookup sb.removals x = some r' →
      hGet sa.heap r' = hGet sb.heap r') :
    elPure sa x = elPure sb x := by
  unfold elPure
  rw [hr]
  cases hlk : alookup sb.removals x with
  | none => rfl
  | some r' =>
    show innerAllPure (hGet sa.heap r') = innerAllPure (hGet sb.heap r')
    rw [hh r' hlk]

/-! ### Runs in which every teardown is a plain resource release -/

theorem invokeVal_isPure (fuel : Nat) (v : JSVal) (s : St)
    (h : isPureFn v = true) :
    invokeVal (fuel + 2) v s =
      .ok { s with events := s.events ++ [.invoked (pureId v)] } := by
  cases v with
  | fn t =>
    cases t with
    | pure i => rfl
    | thrower j => simp [isPureFn] at h
    | reg el k w => simp [isPureFn] at h
  | undef => simp [isPureFn] at h
  | null => simp [isPureFn] at h
  | bool b => simp [isPureFn] at h
  | num n => simp [isPureFn] at h
  | str st => simp [isPureFn] at h
  | obj => simp [isPureFn] at h

theorem runInner_pure (fuel : Nat) (inner : Inner) (s : St)
    (h : innerAllPure inner = true) :
    runInner (fuel + 2) inner s =
      .ok { s with events := s.events ++ (innerIds inner).map Ev.invoked } := by
  induction inner generalizing s with
  | nil => simp [runInner, innerIds]
  | cons kv rest ih =>
    obtain ⟨k, v⟩ := kv
    simp only [innerAllPure, List.all_cons, Bool.and_eq_true] at h
    simp only [runInner, invokeVal_isPure fuel v s h.1]
    rw [ih _ (by simpa [innerAllPure] using h.2)]
    simp [innerIds]

theorem subtreeIds_congr (s1 s2 : St) (els : List Nat)
    (h : ∀ x ∈ els, entryIds s1 x = entryIds s2 x) :
    subtreeIds s1 els = subtreeIds s2 els := by
  induction els with
  | nil => rfl
  | cons x r ih =>
    simp only [subtreeIds]
    rw [h x (List.mem_cons_self _ _), ih fun y hy => h y (List.mem_cons_of_mem _ hy)]

theorem subtreeIds_length (s : St) (els : List Nat) :
    (subtreeIds s els).length = (els.map fun x => (entryIds s x).length).sum := by
  induction els with
  | nil => rfl
  | cons x r ih => simp [subtreeIds, ih]

/-- Full behaviour of `cleanupEls` on a duplicate-free list of elements all
of whose registered teardowns are plain resource releases: it succeeds,
appends exactly one invocation event per registered entry (in order), removes
every listed element from the registry, and leaves every other element's
entries untouched. -/
theorem cleanupEls_pure (fuel : Nat) (els : List Nat) (s : St)
    (hw : wfSt s) (hn : els.Nodup)
    (hp : ∀ x ∈ els, elPure s x = true) :
    ∃ s', cleanupEls (fuel + 2) els s = .ok s' ∧
      s'.events = s.events ++ (subtreeIds s els).map Ev.invoked ∧
      (∀ x ∈ els, alookup s'.removals x = none) ∧
      (∀ x, x ∉ els → alookup s'.removals x = alookup s.removals x) ∧
      (∀ x, x ∉ els → entryIds s' x = entryIds s x) ∧
      (∀ x, x ∉ els → elPure s' x = elPure s x) ∧
      s'.nextRef = s.nextRef ∧
      wfSt s' := by
  induction els generalizing s with
  | nil =>
    exact ⟨s, rfl, by simp [subtreeIds], by simp, fun x _ => rfl, fun x _ => rfl,
      fun x _ => rfl, rfl, hw⟩
  | cons el rest ih =>
    have hnel : el ∉ rest := (List.nodup_cons.mp hn).1
    have hnr : rest.Nodup := (List.nodup_cons.mp hn).2
    cases href : alookup s.removals el with
    | none =>
      obtain ⟨s', hrun, hev, hin, hout, hent, hpr, hnx, hw'⟩ :=
        ih s hw hnr (fun x hx => hp x (List.mem_cons_of_mem _ hx))
      refine ⟨s', ?_, ?_, ?_, ?_, ?_, ?_, hnx, hw'⟩
      · simpa only [cleanupEls, href] using hrun
      · rw [hev]
        have : entryIds s el = [] := by simp [entryIds, href]
        simp [subtreeIds, this]
      · intro x hx
        rcases List.mem_cons.mp hx with rfl | hx'
        · rw [hout x hnel, href]
        · exact hin x hx'
      · intro x hx
        exact hout x fun hx' => hx (List.mem_cons_of_mem _ hx')
      · intro x hx
        exact hent x fun hx' => hx (List.mem_cons_of_mem _ hx')
      · intro x hx
        exact hpr x fun hx' => hx (List.mem_cons_of_mem _ hx')
    | some ref =>
      obtain ⟨hw1, hw2, hw3, hw4, hw5, hw6⟩ := hw
      have hrefmem : (el, ref) ∈ s.removals := alookup_mem _ _ _ href
      have hrefnx : ref < s.nextRef := hw5 _ hrefmem
      have hpel : innerAllPure (hGet s.heap ref) = true := by
        have := hp el (List.mem_cons_self _ _)
        simpa [elPure, href] using this
      -- the state after clearing `el`
      set inner := hGet s.heap ref with hinner
      set s3 : St :=
        { removals := adel s.removals el,
          heap := aset s.heap ref [],
          nextRef := s.nextRef,
          events := s.events ++ (innerIds inner).map Ev.invoked } with hs3
      have hstep : cleanupEls (fuel + 2) (el :: rest) s = cleanupEls (fuel + 2) rest s3 := by
        simp only [cleanupEls, href]
        rw [runInner_pure fuel inner _ hpel]
      -- removals/heap facts about s3 relative to s
      have hremo : ∀ x, x ≠ el → alookup s3.removals x = alookup s.removals x := by
        intro x hx
        exact alookup_adel_ne _ _ _ hx
      have hrefs : ∀ x r', x ≠ el → alookup s.removals x = some r' → r' ≠ ref := by
        intro x r' hx hlk heq
        subst heq
        exact hx (nodup_snd_inj s.removals hw2 x el r' (alookup_mem _ _ _ hlk) hrefmem)
      have hheap3 : ∀ x, x ≠ el → ∀ r', alookup s.removals x = some r' →
          hGet s3.heap r' = hGet s.heap r' := by
        intro x hx r' hlk
        exact hGet_aset_ne _ _ _ _ (hrefs x r' hx hlk)
      have hentry : ∀ x, x ≠ el → entryIds s3 x = entryIds s x := by
        intro x hx
        exact entryIds_congr s3 s x (hremo x hx) (hheap3 x hx)
      have hpure3 : ∀ x, x ≠ el → elPure s3 x = elPure s x := by
        intro x hx
        exact elPure_congr s3 s x (hremo x hx) (hheap3 x hx)
      have hw3' : wfSt s3 := by
        refine ⟨?_, ?_, ?_, ?_, ?_, ?_⟩
        · exact ((adel_sublist s.removals el).map Prod.fst).nodup hw1
        · exact ((adel_sublist s.removals el).map Prod.snd).nodup hw2
        · exact nodup_fst_aset _ _ _ hw3
        · intro p hpmem
          rcases mem_aset _ _ _ _ hpmem with rfl | hpmem'
          · simp
          · exact hw4 p hpmem'
        · intro p hpmem
          exact hw5 p ((adel_sublist s.removals el).mem hpmem)
        · intro p hpmem
          rcases mem_aset _ _ _ _ hpmem with rfl | hpmem'
          · exact hrefnx
          · exact hw6 p hpmem'
      obtain ⟨s', hrun, hev, hin, hout, hent, hpr, hnx, hw'⟩ :=
        ih s3 hw3' hnr (fun x hx => by
          rw [hpure3 x (fun he => hnel (he ▸ hx))]
          exact hp x (List.mem_cons_of_mem _ hx))
      refine ⟨s', ?_, ?_, ?_, ?_, ?_, ?_, ?_, hw'⟩
      · rw [hstep]
        exact hrun
      · rw [hev]
        have hsub : subtreeIds s3 rest = subtreeIds s rest :=
          subtreeIds_congr _ _ _ fun x hx => hentry x (fun he => hnel (he ▸ hx))
        have hids : entryIds s el = innerIds inner := by simp [entryIds, href, hinner]
        simp [hs3, subtreeIds, hsub, hids, List.append_assoc]
      · intro x hx
        rcases List.mem_cons.mp hx with rfl | hx'
        · rw [hout x hnel]
          show alookup (adel s.removals x) x = none
          exact alookup_adel_self _ _ hw1
        · exact hin x hx'
      · intro x hx
        have hxel : x ≠ el := fun he => hx (he ▸ List.mem_cons_self _ _)
        rw [hout x fun hx' => hx (List.mem_cons_of_mem _ hx'), hremo x hxel]
      · intro x hx
        have hxel : x ≠ el := fun he => hx (he ▸ List.mem_cons_self _ _)
        rw [hent x fun hx' => hx (List.mem_cons_of_mem _ hx'), hentry x hxel]
      · intro x hx
        have hxel : x ≠ el := fun he => hx (he ▸ List.mem_cons_self _ _)
        rw [hpr x fun hx' => hx (List.mem_cons_of_mem _ hx'), hpure3 x hxel]
      · exact hnx

/-- Full behaviour of the childList removal handler when every registered
teardown of the removed subtree is a plain resource release. -/
theorem onChildListRemoved_pure (fuel : Nat) (n : RemovedNode) (s : St)
    (hw : wfSt s) (hn : (n.id :: n.descs).Nodup)
    (hp : ∀ x ∈ n.id :: n.descs, elPure s x = true) :
    ∃ s', onChildListRemoved (fuel + 2) n s = .ok s' ∧
      s'.events = s.events ++ (subtreeIds s (n.id :: n.descs)).map Ev.invoked ∧
      (∀ x ∈ n.id :: n.descs, alookup s'.removals x = none) ∧
      (∀ x, x ∉ n.id :: n.descs →
        alookup s'.removals x = alookup s.removals x ∧
        entryIds s' x = entryIds s x) ∧
      s'.nextRef = s.nextRef ∧ wfSt s' := by
  have hnid : n.id ∉ n.descs := (List.nodup_cons.mp hn).1
  have hnd : n.descs.Nodup := (List.nodup_cons.mp hn).2
  have hdisj : ∀ x, x ∈ n.descs → x ∉ [n.id] := by
    intro x hx hm
    exact hnid ((List.mem_singleton.mp hm) ▸ hx)
  obtain ⟨sA, hrunA, hevA, hinA, houtA, hentA, hprA, hnxA, hwA⟩ :=
    cleanupEls_pure fuel [n.id] s hw (List.nodup_singleton _)
      (fun x hx => by
        rcases List.mem_singleton.mp hx with rfl
        exact hp _ (List.mem_cons_self _ _))
  obtain ⟨sB, hrunB, hevB, hinB, houtB, hentB, hprB, hnxB, hwB⟩ :=
    cleanupEls_pure fuel n.descs sA hwA hnd
      (fun x hx => by
        rw [hprA x (hdisj x hx)]
        exact hp x (List.mem_cons_of_mem _ hx))
  refine ⟨sB, ?_, ?_, ?_, ?_, by rw [hnxB, hnxA], hwB⟩
  · unfold onChildListRemoved
    rw [hrunA]
    exact hrunB
  · rw [hevB, hevA]
    have hsub : subtreeIds sA n.descs = subtreeIds s n.descs :=
      subtreeIds_congr _ _ _ fun x hx => hentA x (hdisj x hx)
    simp [hsub, subtreeIds, List.append_assoc]
  · intro x hx
    rcases List.mem_cons.mp hx with rfl | hx'
    · rw [houtB _ hnid]
      exact hinA _ (List.mem_singleton.mpr rfl)
    · exact hinB x hx'
  · intro x hx
    have hx1 : x ∉ [n.id] := by
      intro hm
      exact hx ((List.mem_singleton.mp hm) ▸ List.mem_cons_self _ _)
    have hx2 : x ∉ n.descs := fun h' => hx (List.mem_cons_of_mem _ h')
    exact ⟨by rw [houtB x hx2, houtA x hx1],
      by rw [hentB x hx2, hentA x hx1]⟩

/-- C1: removing an element from the DOM (a childList mutation record) when
it has N registered (key, teardown) pairs and element descendants each with
their own registered entries invokes exactly one teardown per registered
entry — the appended events are exactly one `invoked` event per entry of the
element and of each descendant, so the total is N plus the sum of the
descendants' entry counts and each teardown runs exactly once — and
afterwards the registry holds no entry for the element or any descendant. -/
theorem element_removal_cleans_all (fuel : Nat) (n : RemovedNode) (s : St)
    (hw : wfSt s) (hn : (n.id :: n.descs).Nodup)
    (hp : ∀ x ∈ n.id :: n.descs, elPure s x = true) :
    ∃ s', onChildListRemoved (fuel + 2) n s = .ok s' ∧
      s'.events = s.events ++ (subtreeIds s (n.id :: n.descs)).map Ev.invoked ∧
      s'.events.length = s.events.length + (entryIds s n.id).length
        + ((n.descs.map fun d => (entryIds s d).length).sum) ∧
      (∀ i, s'.events.count (Ev.invoked i)
        = s.events.count (Ev.invoked i) + (subtreeIds s (n.id :: n.descs)).count i) ∧
      (∀ x ∈ n.id :: n.descs, alookup s'.removals x = none) := by
  obtain ⟨s', hrun, hev, hin, _, _, _⟩ :=
    onChildListRemoved_pure fuel n s hw hn hp
  refine ⟨s', hrun, hev, ?_, ?_, hin⟩
  · rw [hev]
    simp only [List.length_append, List.length_map, subtreeIds_length,
      List.map_cons, List.sum_cons]
    omega
  · intro i
    rw [hev]
    rw [List.count_append]
    congr 1
    exact List.count_map_of_injective _ Ev.invoked
      (fun a b h => by cases h; rfl) i

/-- Witness for `element_removal_cleans_all` at the concrete state `stTree`:
element 1 carries two entries, descendant 2 one entry, descendant 3 none,
and unrelated element 4 is untouched by the hypotheses. -/
theorem element_removal_cleans_all_witness :
    wfSt stTree ∧ (ndTree.id :: ndTree.descs).Nodup ∧
    (∀ x ∈ ndTree.id :: ndTree.descs, elPure stTree x = true) ∧
    ∃ s', onChildListRemoved 2 ndTree stTree = .ok s' ∧
      s'.events = stTree.events
        ++ (subtreeIds stTree (ndTree.id :: ndTree.descs)).map Ev.invoked ∧
      s'.events.length = stTree.events.length + (entryIds stTree ndTree.id).length
        + ((ndTree.descs.map fun d => (entryIds stTree d).length).sum) ∧
      (∀ i, s'.events.count (Ev.invoked i)
        = stTree.events.count (Ev.invoked i)
          + (subtreeIds stTree (ndTree.id :: ndTree.descs)).count i) ∧
      (∀ x ∈ ndTree.id :: ndTree.descs, alookup s'.removals x = none) :=
  ⟨by decide, by decide, by decide,
    element_removal_cleans_all 0 ndTree stTree (by decide) (by decide) (by decide)⟩

/-- C6: an element flagged with a persistent identity present in both trees
is moved by `removeNode` to the pantry: no teardown is invoked and the whole
engine state — in particular every registry entry of the element — is left
exactly as it was; an element without such an identity goes through the
ordinary removal path, on which every registered teardown of it and of its
descendants fires and their registry entries are removed. -/
theorem relocation_suppresses_cleanup (fuel : Nat) (n : RemovedNode) (s : St)
    (hw : wfSt s) (hn : (n.id :: n.descs).Nodup)
    (hp : ∀ x ∈ n.id :: n.descs, elPure s x = true) :
    removeNode (fuel + 2) true n s = (Dest.pantry, .ok s) ∧
    (∃ s', removeNode (fuel + 2) false n s = (Dest.removedFromDom, .ok s') ∧
      s'.events = s.events ++ (subtreeIds s (n.id :: n.descs)).map Ev.invoked ∧
      (∀ x ∈ n.id :: n.descs, alookup s'.removals x = none)) := by
  constructor
  · rfl
  · obtain ⟨s', h1, h2, h3, _⟩ := onChildListRemoved_pure fuel n s hw hn hp
    refine ⟨s', ?_, h2, h3⟩
    simp [removeNode, h1]

/-- Witness for `relocation_suppresses_cleanup` at the concrete state
`stTree`. -/
theorem relocation_suppresses_cleanup_witness :
    wfSt stTree ∧ (ndTree.id :: ndTree.descs).Nodup ∧
    (∀ x ∈ ndTree.id :: ndTree.descs, elPure stTree x = true) ∧
    (removeNode 2 true ndTree stTree = (Dest.pantry, .ok stTree) ∧
    (∃ s', removeNode 2 false ndTree stTree = (Dest.removedFromDom, .ok s') ∧
      s'.events = stTree.events
        ++ (subtreeIds stTree (ndTree.id :: ndTree.descs)).map Ev.invoked ∧
      (∀ x ∈ ndTree.id :: ndTree.descs, alookup s'.removals x = none))) :=
  ⟨by decide, by decide, by decide,
    relocation_suppresses_cleanup 0 ndTree stTree (by decide) (by decide) (by decide)⟩

theorem strStartsWith_data (k : String) :
    strStartsWith ("data-" ++ k) "data-" = true := by
  unfold strStartsWith
  rw [String.data_append]
  rw [show ("data-" : String).data = ['d', 'a', 't', 'a', '-'] from rfl]
  rw [List.take_left]
  simp

theorem strDrop_data (k : String) : strDrop ("data-" ++ k) 5 = k := by
  obtain ⟨d⟩ := k
  unfold strDrop
  rw [String.data_append]
  rw [show ("data-" : String).data = ['d', 'a', 't', 'a', '-'] from rfl]
  rw [show (5 : Nat) = (['d', 'a', 't', 'a', '-'] : List Char).length from rfl]
  rw [List.drop_left]

/-- One-step unfolding of `cleanupEls`. -/
theorem cleanupEls_cons (fuel el : Nat) (rest : List Nat) (s : St) :
    cleanupEls fuel (el :: rest) s =
      match alookup s.removals el with
      | none => cleanupEls fuel rest s
      | some ref =>
        match runInner fuel (hGet s.heap ref) { s with removals := adel s.removals el } with
        | .ok s2 => cleanupEls fuel rest { s2 with heap := aset s2.heap ref [] }
        | r => r := rfl

/-- `runInner` distributes over concatenation of the snapshot. -/
theorem runInner_append (fuel : Nat) (a b : Inner) (s : St) :
    runInner fuel (a ++ b) s =
      match runInner fuel a s with
      | .ok s' => runInner fuel b s'
      | r => r := by
  induction a generalizing s with
  | nil => rfl
  | cons kv rest ih =>
    obtain ⟨k, v⟩ := kv
    show (match invokeVal fuel v s with
      | Res.ok s' => runInner fuel (rest ++ b) s'
      | r => r) =
      match (match invokeVal fuel v s with
        | Res.ok s' => runInner fuel rest s'
        | r => r) with
      | Res.ok s' => runInner fuel b s'
      | r => r
    cases invokeVal fuel v s with
    | ok s' => exact ih s'
    | exn e s' => rfl
    | out => rfl

/-- `runInner_pure` restated at call-depth three. -/
theorem runInner_pure3 (fuel : Nat) (inner : Inner) (s : St)
    (h : innerAllPure inner = true) :
    runInner (fuel + 3) inner s =
      .ok { s with events := s.events ++ (innerIds inner).map Ev.invoked } :=
  runInner_pure (fuel + 1) inner s h

/-- Invoking a teardown that re-registers a cleanup for an element that is
(currently) absent from the outer map: a fresh inner map is allocated and
the cleanup is stored in it. -/
theorem invokeVal_reg_fresh (fuel el : Nat) (k : String) (v : JSVal) (s : St)
    (ht : truthy v = true) (hnone : alookup s.removals el = none) :
    invokeVal (fuel + 3) (.fn (.reg el k v)) s =
      .ok { s with
            removals := aset s.removals el s.nextRef,
            heap := aset s.heap s.nextRef [(k, v)],
            nextRef := s.nextRef + 1,
            events := s.events ++ [.stored el k] } := by
  show interp (fuel + 1) (.rcg el k v) s = _
  simp only [interp, ht, hnone, if_true]

/-- The registration block when the pair already holds a plain teardown and
the new cleanup value is truthy: the old teardown is invoked, then the new
value replaces it in the same inner map. -/
theorem registerCleanup_replace_pure (fuel e ref i1 : Nat) (kk : String)
    (v2 : JSVal) (s : St)
    (href : alookup s.removals e = some ref)
    (hold : alookup (hGet s.heap ref) kk = some (.fn (.pure i1)))
    (ht : truthy v2 = true) :
    registerCleanup (fuel + 3) e kk v2 s =
      .ok { s with
            heap := aset s.heap ref (aset (hGet s.heap ref) kk v2),
            events := s.events ++ [.invoked i1, .stored e kk] } := by
  show interp (fuel + 3) (.rcg e kk v2) s = _
  simp only [interp, ht, href, hold, if_true]
  simp [List.append_assoc]

/-- The registration block at an absent element with a truthy value:
allocate a fresh inner map and store. -/
theorem registerCleanup_fresh (fuel el : Nat) (k : String) (v : JSVal) (s : St)
    (ht : truthy v = true) (hnone : alookup s.removals el = none) :
    registerCleanup (fuel + 1) el k v s =
      .ok { s with
            removals := aset s.removals el s.nextRef,
            heap := aset s.heap s.nextRef [(k, v)],
            nextRef := s.nextRef + 1,
            events := s.events ++ [.stored el k] } := by
  show interp (fuel + 1) (.rcg el k v) s = _
  simp only [interp, ht, hnone, if_true]

/-- The registration block simply returns when the value is falsy. -/
theorem registerCleanup_falsy (fuel el : Nat) (k : String) (v : JSVal) (s : St)
    (ht : truthy v = false) :
    registerCleanup (fuel + 1) el k v s = .ok s := by
  show interp (fuel + 1) (.rcg el k v) s = _
  simp only [interp, ht]
  simp

/-- The registration block at a present element whose inner map lacks the
key: no previous teardown to run, store directly. -/
theorem registerCleanup_nokey (fuel el ref : Nat) (k : String) (v : JSVal)
    (s : St) (ht : truthy v = true)
    (href : alookup s.removals el = some ref)
    (hold : alookup (hGet s.heap ref) k = none) :
    registerCleanup (fuel + 1) el k v s =
      .ok { s with
            heap := aset s.heap ref (aset (hGet s.heap ref) k v),
            events := s.events ++ [.stored el k] } := by
  show interp (fuel + 1) (.rcg el k v) s = _
  simp only [interp, ht, if_true, href, hold]

/-- The registration block at a present element whose inner map already has
the key: run the previous cleanup, then write into the same inner map. -/
theorem registerCleanup_oldsome (fuel el ref : Nat) (k : String)
    (v old : JSVal) (s : St) (ht : truthy v = true)
    (href : alookup s.removals el = some ref)
    (hold : alookup (hGet s.heap ref) k = some old) :
    registerCleanup (fuel + 1) el k v s =
      match interp fuel (.val old) s with
      | .ok s' =>
        .ok { s' with
              heap := aset s'.heap ref (aset (hGet s'.heap ref) k v),
              events := s'.events ++ [.stored el k] }
      | r => r := by
  show interp (fuel + 1) (.rcg el k v) s = _
  simp only [interp, ht, if_true, href, hold]

/-- Lookup of the key sitting in the middle of an inner map with
duplicate-free keys. -/
theorem alookup_of_nodup_mid (pre post : Inner) (kk : String) (w : JSVal)
    (h : (((pre ++ (kk, w) :: post)).map Prod.fst).Nodup) :
    alookup (pre ++ (kk, w) :: post) kk = some w := by
  induction pre with
  | nil => simp [alookup_cons]
  | cons p r ih =>
    obtain ⟨a, b⟩ := p
    simp only [List.cons_append, List.map_cons, List.nodup_cons] at h
    have ha : a ≠ kk := by
      intro he
      exact h.1 (by simp [he])
    rw [List.cons_append, alookup_cons, if_neg ha]
    exact ih h.2

/-- The attribute-removal handler on a present plain entry: the teardown is
invoked, then the key is deleted from the element's inner map (the outer
entry is kept). -/
theorem onAttrChanged_removes_key (fuel target ref i : Nat) (k : String)
    (s : St)
    (href : alookup s.removals target = some ref)
    (hold : alookup (hGet s.heap ref) k = some (.fn (.pure i))) :
    onAttrChanged (fuel + 2) target ("data-" ++ k) none s =
      .ok { s with heap := aset s.heap ref (adel (hGet s.heap ref) k), events := s.events ++ [.invoked i] } := by
  unfold onAttrChanged
  rw [if_pos (strStartsWith_data k), strDrop_data]
  show (match alookup s.removals target with
    | some ref => _ | none => _ : Res) = _
  rw [href]
  show (match alookup (hGet s.heap ref) k with
    | some old => _ | none => _ : Res) = _
  rw [hold]
  show (match invokeVal (fuel + 2) (.fn (.pure i)) s with
    | Res.ok s' => _ | r => r) = _
  rw [show invokeVal (fuel + 2) (.fn (.pure i)) s
    = .ok { s with events := s.events ++ [.invoked i] } from rfl]

/-- C7: removing only the tracked attribute `data-`k from an element that
stays in the DOM invokes only k's teardown and deletes only k's entry; every
other key of the element keeps its teardown uninvoked, and the entries of
every other element are unchanged. -/
theorem attribute_removal_cleans_single_key
    (fuel target ref i : Nat) (k : String) (s : St)
    (hw : wfSt s)
    (href : alookup s.removals target = some ref)
    (hold : alookup (hGet s.heap ref) k = some (.fn (.pure i))) :
    ∃ s', onAttrChanged (fuel + 2) target ("data-" ++ k) none s = .ok s' ∧
      s'.events = s.events ++ [.invoked i] ∧
      s'.removals = s.removals ∧
      alookup (hGet s'.heap ref) k = none ∧
      (∀ k', k' ≠ k → alookup (hGet s'.heap ref) k' = alookup (hGet s.heap ref) k') ∧
      (∀ x, x ≠ target → entryIds s' x = entryIds s x) ∧
      s'.nextRef = s.nextRef := by
  obtain ⟨hw1, hw2, hw3, hw4, hw5, hw6⟩ := hw
  have hsome : alookup s.heap ref = some (hGet s.heap ref) := by
    unfold hGet
    cases hlk : alookup s.heap ref with
    | none =>
      rw [show hGet s.heap ref = [] by unfold hGet; rw [hlk]; rfl] at hold
      simp [alookup] at hold
    | some inner => rfl
  have hnodk : ((hGet s.heap ref).map Prod.fst).Nodup :=
    hw4 _ (alookup_mem _ _ _ hsome)
  use { s with heap := aset s.heap ref (adel (hGet s.heap ref) k), events := s.events ++ [.invoked i] }
  refine ⟨?_, rfl, rfl, ?_, ?_, ?_, rfl⟩
  · exact onAttrChanged_removes_key fuel target ref i k s href hold
  · rw [hGet_aset_self]
    exact alookup_adel_self _ _ hnodk
  · intro k' hk
    rw [hGet_aset_self]
    exact alookup_adel_ne _ _ _ hk
  · intro x hx
    refine entryIds_congr _ s x rfl ?_
    intro r' hlk
    have hne : r' ≠ ref := fun he =>
      hx (nodup_snd_inj s.removals hw2 x target r'
        (alookup_mem _ _ _ hlk) (he ▸ alookup_mem _ _ _ href))
    exact hGet_aset_ne _ _ _ _ hne

/-- Witness for `attribute_removal_cleans_single_key` at `stMulti`: element 1
has entries for "a", "b", "c" and only "b" is removed. -/
theorem attribute_removal_cleans_single_key_witness :
    wfSt stMulti ∧ alookup stMulti.removals 1 = some 0 ∧
    alookup (hGet stMulti.heap 0) "b" = some (.fn (.pure 2)) ∧
    ∃ s', onAttrChanged 2 1 ("data-" ++ "b") none stMulti = .ok s' ∧
      s'.events = stMulti.events ++ [.invoked 2] ∧
      s'.removals = stMulti.removals ∧
      alookup (hGet s'.heap 0) "b" = none ∧
      (∀ k', k' ≠ "b" →
        alookup (hGet s'.heap 0) k' = alookup (hGet stMulti.heap 0) k') ∧
      (∀ x, x ≠ 1 → entryIds s' x = entryIds stMulti x) ∧
      s'.nextRef = stMulti.nextRef :=
  ⟨by decide, rfl, rfl,
    attribute_removal_cleans_single_key 0 1 0 2 "b" stMulti (by decide) rfl rfl⟩

/-- C9 counterexample: at `stOne`, removing attribute "data-x" is the
operation that removes element 7's last remaining (key, teardown) entry, yet
afterwards `removals.get(7)` yields the (now empty) inner mapping, not
absence: the attribute-removal handler never deletes the outer entry. -/
theorem empty_inner_map_counterexample :
    onAttrChanged 2 7 "data-x" none stOne =
      .ok { removals := [(7, 0)], heap := [(0, [])], nextRef := 1,
            events := [.invoked 1] } ∧
    alookup ([((7 : Nat), (0 : Nat))]) 7 = some 0 ∧
    ¬ alookup ([((7 : Nat), (0 : Nat))]) 7 = none :=
  ⟨rfl, rfl, by decide⟩

/-- C9 amended: the outer registry entry is deleted when the element's inner
map is emptied via full element cleanup (`cleanupEls`); the attribute-removal
path, by contrast, never deletes the outer entry, so the operation that
removes the element's last remaining entry through `clearKey` leaves the
element registered with an empty inner mapping. -/
theorem outer_entry_deleted_only_by_full_cleanup
    (fuel el ref i : Nat) (k : String) (s : St)
    (hw : wfSt s)
    (href : alookup s.removals el = some ref)
    (hone : hGet s.heap ref = [(k, .fn (.pure i))]) :
    (∃ s', cleanupEls (fuel + 2) [el] s = .ok s' ∧
      alookup s'.removals el = none) ∧
    (∃ s', onAttrChanged (fuel + 2) el ("data-" ++ k) none s = .ok s' ∧
      alookup s'.removals el = some ref ∧ hGet s'.heap ref = []) := by
  constructor
  · obtain ⟨s', hrun, _, hin, _, _, _, _, _⟩ :=
      cleanupEls_pure fuel [el] s hw (List.nodup_singleton _)
        (fun x hx => by
          rcases List.mem_singleton.mp hx with rfl
          simp [elPure, href, hone, innerAllPure, isPureFn])
    exact ⟨s', hrun, hin el (List.mem_singleton.mpr rfl)⟩
  · have hold : alookup (hGet s.heap ref) k = some (.fn (.pure i)) := by
      rw [hone]
      simp [alookup_cons]
    refine ⟨_, onAttrChanged_removes_key fuel el ref i k s href hold, href, ?_⟩
    rw [hGet_aset_self, hone]
    simp [adel_cons]

/-- Witness for `outer_entry_deleted_only_by_full_cleanup` at `stOne`. -/
theorem outer_entry_deleted_only_by_full_cleanup_witness :
    wfSt stOne ∧ alookup stOne.removals 7 = some 0 ∧
    hGet stOne.heap 0 = [("x", .fn (.pure 1))] ∧
    ((∃ s', cleanupEls 2 [7] stOne = .ok s' ∧
      alookup s'.removals 7 = none) ∧
    (∃ s', onAttrChanged 2 7 ("data-" ++ "x") none stOne = .ok s' ∧
      alookup s'.removals 7 = some 0 ∧ hGet s'.heap 0 = [])) :=
  ⟨by decide, rfl, rfl,
    outer_entry_deleted_only_by_full_cleanup 0 7 0 1 "x" stOne (by decide) rfl rfl⟩

/-- Running an inner-map snapshot that starts with a re-registering teardown
for a currently-absent element, followed by plain teardowns. -/
theorem runInner_reg_cons (fuel el : Nat) (k kr : String) (v : JSVal)
    (ts2 : Inner) (sB : St)
    (ht : truthy v = true) (hnone : alookup sB.removals el = none)
    (h2 : innerAllPure ts2 = true) :
    runInner (fuel + 3) ((kr, .fn (.reg el k v)) :: ts2) sB =
      .ok { removals := aset sB.removals el sB.nextRef,
            heap := aset sB.heap sB.nextRef [(k, v)],
            nextRef := sB.nextRef + 1,
            events := (sB.events ++ [.stored el k]) ++ (innerIds ts2).map Ev.invoked } := by
  show (match invokeVal (fuel + 3) (.fn (.reg el k v)) sB with
    | Res.ok s' => runInner (fuel + 3) ts2 s'
    | r => r) = _
  rw [invokeVal_reg_fresh fuel el k v sB ht hnone]
  show runInner (fuel + 3) ts2 _ = _
  rw [runInner_pure3 fuel ts2 _ h2]

/-- C5: `cleanupEls` removes the element's outer entry before iterating its
teardowns, so a teardown that synchronously re-registers a new cleanup `v`
for the same element during the element-wide clear leaves that entry alive
when the clear returns: the new entry sits in a freshly allocated inner map
under the re-registered key, the trailing `clear()` of the old (detached)
map does not wipe it, and `v` itself is never invoked — the events appended
by the whole clear are exactly the invocations of the old plain entries plus
the `stored` event of the re-registration. -/
theorem reentrant_registration_survives_clear
    (fuel el ref : Nat) (kr k : String) (v : JSVal) (ts1 ts2 : Inner) (s : St)
    (hw : wfSt s)
    (href : alookup s.removals el = some ref)
    (hin : hGet s.heap ref = ts1 ++ (kr, .fn (.reg el k v)) :: ts2)
    (h1 : innerAllPure ts1 = true) (h2 : innerAllPure ts2 = true)
    (ht : truthy v = true) :
    ∃ s', cleanupEls (fuel + 3) [el] s = .ok s' ∧
      alookup s'.removals el = some s.nextRef ∧
      hGet s'.heap s.nextRef = [(k, v)] ∧
      s'.events = s.events ++ (innerIds ts1).map Ev.invoked
        ++ [.stored el k] ++ (innerIds ts2).map Ev.invoked := by
  obtain ⟨hw1, hw2, hw3, hw4, hw5, hw6⟩ := hw
  have hrefnx : ref < s.nextRef := hw5 _ (alookup_mem _ _ _ href)
  have hnone1 : alookup (adel s.removals el) el = none :=
    alookup_adel_self _ _ hw1
  refine ⟨{ removals := aset (adel s.removals el) el s.nextRef,
            heap := aset (aset s.heap s.nextRef [(k, v)]) ref [],
            nextRef := s.nextRef + 1,
            events := s.events ++ (innerIds ts1).map Ev.invoked
              ++ [.stored el k] ++ (innerIds ts2).map Ev.invoked }, ?_, ?_, ?_, rfl⟩
  · simp only [cleanupEls_cons, href, hin, runInner_append,
      runInner_pure3 fuel ts1 _ h1]
    rw [runInner_reg_cons fuel el k kr v ts2
      { removals := adel s.removals el, heap := s.heap, nextRef := s.nextRef,
        events := s.events ++ (innerIds ts1).map Ev.invoked } ht hnone1 h2]
    simp [cleanupEls, List.append_assoc]
  · exact alookup_aset_self _ _ _
  · rw [hGet_aset_ne _ _ _ _ (Nat.ne_of_gt hrefnx), hGet_aset_self]

/-- Witness for `reentrant_registration_survives_clear` at `stReent`. -/
theorem reentrant_registration_survives_clear_witness :
    wfSt stReent ∧ alookup stReent.removals 2 = some 0 ∧
    hGet stReent.heap 0 = [("p", .fn (.pure 11))]
      ++ ("q", .fn (.reg 2 "n" (.fn (.pure 99)))) :: [("r", .fn (.pure 12))] ∧
    innerAllPure [("p", .fn (.pure 11))] = true ∧
    innerAllPure [("r", .fn (.pure 12))] = true ∧
    truthy (.fn (.pure 99)) = true ∧
    ∃ s', cleanupEls 3 [2] stReent = .ok s' ∧
      alookup s'.removals 2 = some stReent.nextRef ∧
      hGet s'.heap stReent.nextRef = [("n", .fn (.pure 99))] ∧
      s'.events = stReent.events
        ++ (innerIds [("p", .fn (.pure 11))]).map Ev.invoked
        ++ [.stored 2 "n"]
        ++ (innerIds [("r", .fn (.pure 12))]).map Ev.invoked :=
  ⟨by decide, rfl, rfl, rfl, rfl, rfl,
    reentrant_registration_survives_clear 0 2 0 "q" "n" (.fn (.pure 99))
      [("p", .fn (.pure 11))] [("r", .fn (.pure 12))] stReent
      (by decide) rfl rfl rfl rfl rfl⟩

/-- C3 counterexample: at `stReplace` (teardown 7 registered for (1, "k")),
re-applying the attribute with a setup routine (identifier 9) that returns a
new teardown (identifier 8) yields the trace `setupRun 9` then `invoked 7`:
the new setup routine runs first, so the old teardown is not invoked before
the new setup runs, contradicting the claimed event order. -/
theorem reapply_order_counterexample :
    applyPlugin 3 1 "k" 9 (.fn (.pure 8)) stReplace =
      .ok { removals := [(1, 0)], heap := [(0, [("k", .fn (.pure 8))])],
            nextRef := 1, events := [.setupRun 9, .invoked 7, .stored 1 "k"] } ∧
    ¬ ([Ev.setupRun 9, Ev.invoked 7, Ev.stored 1 "k"].indexOf (Ev.invoked 7)
        < [Ev.setupRun 9, Ev.invoked 7, Ev.stored 1 "k"].indexOf (Ev.setupRun 9)) :=
  ⟨rfl, by decide⟩

/-- C3 amended: on re-application of an attribute to a (element, key) pair
that already holds a teardown, the guaranteed order is: the new setup
routine runs first, then the old teardown is invoked, then the new teardown
is stored (old teardown before new *storage*, but after the new *setup*). -/
theorem reapply_runs_setup_then_old_teardown
    (fuel sid e ref i1 : Nat) (kk : String) (v2 : JSVal) (s : St)
    (href : alookup s.removals e = some ref)
    (hold : alookup (hGet s.heap ref) kk = some (.fn (.pure i1)))
    (ht : truthy v2 = true) :
    ∃ s', applyPlugin (fuel + 3) e kk sid v2 s = .ok s' ∧
      s'.events = s.events ++ [.setupRun sid, .invoked i1, .stored e kk] ∧
      alookup (hGet s'.heap ref) kk = some v2 := by
  refine ⟨{ s with
            heap := aset s.heap ref (aset (hGet s.heap ref) kk v2),
            events := s.events ++ [.setupRun sid, .invoked i1, .stored e kk] },
    ?_, rfl, ?_⟩
  · show registerCleanup (fuel + 3) e kk v2
      { s with events := s.events ++ [.setupRun sid] } = _
    rw [registerCleanup_replace_pure fuel e ref i1 kk v2
      { s with events := s.events ++ [.setupRun sid] } href hold ht]
    simp
  · rw [hGet_aset_self]
    exact alookup_aset_self _ _ _

/-- Witness for `reapply_runs_setup_then_old_teardown` at `stReplace`. -/
theorem reapply_runs_setup_then_old_teardown_witness :
    alookup stReplace.removals 1 = some 0 ∧
    alookup (hGet stReplace.heap 0) "k" = some (.fn (.pure 7)) ∧
    truthy (.fn (.pure 8)) = true ∧
    ∃ s', applyPlugin 3 1 "k" 9 (.fn (.pure 8)) stReplace = .ok s' ∧
      s'.events = stReplace.events ++ [.setupRun 9, .invoked 7, .stored 1 "k"] ∧
      alookup (hGet s'.heap 0) "k" = some (.fn (.pure 8)) :=
  ⟨rfl, rfl, rfl,
    reapply_runs_setup_then_old_teardown 0 9 1 0 7 "k" (.fn (.pure 8)) stReplace
      rfl rfl rfl⟩

/-- A snapshot whose head teardown throws: the exception propagates out of
the loop at once. -/
theorem runInner_thrower_cons (fuel : Nat) (kk : String) (eid : Nat)
    (post : Inner) (sB : St) :
    runInner (fuel + 2) ((kk, .fn (.thrower eid)) :: post) sB =
      .exn (.userExn eid) sB := rfl

/-- The attribute-removal handler on a present throwing entry: the exception
propagates and `cleanups.delete(key)` is never reached, so the state — in
particular the offending entry — is unchanged. -/
theorem onAttrChanged_thrower (fuel target ref eid : Nat) (k : String) (s : St)
    (href : alookup s.removals target = some ref)
    (hold : alookup (hGet s.heap ref) k = some (.fn (.thrower eid))) :
    onAttrChanged (fuel + 2) target ("data-" ++ k) none s =
      .exn (.userExn eid) s := by
  unfold onAttrChanged
  rw [if_pos (strStartsWith_data k), strDrop_data]
  show (match alookup s.removals target with
    | some ref => _ | none => _ : Res) = _
  rw [href]
  show (match alookup (hGet s.heap ref) k with
    | some old => _ | none => _ : Res) = _
  rw [hold]
  rfl

/-- C4 counterexample: at `stThrow`, clearing element 5 hits the throwing
teardown 3.  The exception is not caught — it propagates out of
`cleanupEls` — and the element's remaining teardown 4 is not invoked (the
final trace is empty).  On the attribute-removal path the exception
propagates as well and the offending entry is not removed: the state is
unchanged, with the entry for "a" still present. -/
theorem teardown_throw_counterexample :
    cleanupEls 2 [5] stThrow =
      .exn (.userExn 3)
        { removals := [],
          heap := [(0, [("a", .fn (.thrower 3)), ("b", .fn (.pure 4))])],
          nextRef := 1, events := [] } ∧
    Ev.invoked 4 ∉ ([] : List Ev) ∧
    onAttrChanged 2 5 "data-a" none stThrow = .exn (.userExn 3) stThrow ∧
    alookup (hGet stThrow.heap 0) "a" = some (.fn (.thrower 3)) :=
  ⟨rfl, by decide, rfl, rfl⟩

/-- C4 amended: a teardown that throws during `clearElement`/`clearKey` is
not caught at the invocation site — the exception propagates.  In
`cleanupEls` the element's outer entry was already removed before the
iteration and the plain teardowns before the throwing one have run, but the
remaining teardowns of the element are skipped; in the attribute-removal
path the exception propagates before `cleanups.delete(key)`, so the
offending entry stays in the registry and the state is unchanged. -/
theorem teardown_throw_propagates
    (fuel el ref eid : Nat) (kk : String) (pre post : Inner) (s : St)
    (hw : wfSt s)
    (href : alookup s.removals el = some ref)
    (hin : hGet s.heap ref = pre ++ (kk, .fn (.thrower eid)) :: post)
    (hpre : innerAllPure pre = true) :
    (∃ s', cleanupEls (fuel + 2) [el] s = .exn (.userExn eid) s' ∧
      s'.events = s.events ++ (innerIds pre).map Ev.invoked ∧
      s'.removals = adel s.removals el ∧
      s'.heap = s.heap) ∧
    onAttrChanged (fuel + 2) el ("data-" ++ kk) none s =
      .exn (.userExn eid) s := by
  obtain ⟨hw1, hw2, hw3, hw4, hw5, hw6⟩ := hw
  have hsome : alookup s.heap ref = some (hGet s.heap ref) := by
    unfold hGet
    cases hlk : alookup s.heap ref with
    | none =>
      exfalso
      rw [show hGet s.heap ref = [] by unfold hGet; rw [hlk]; rfl] at hin
      rcases List.append_eq_nil.mp hin.symm with ⟨-, h2⟩
      exact List.cons_ne_nil _ _ h2
    | some inner => rfl
  have hold : alookup (hGet s.heap ref) kk = some (.fn (.thrower eid)) := by
    rw [hin]
    exact alookup_of_nodup_mid pre post kk _
      (hin ▸ hw4 _ (alookup_mem _ _ _ hsome))
  constructor
  · refine ⟨{ s with
              removals := adel s.removals el,
              events := s.events ++ (innerIds pre).map Ev.invoked },
      ?_, rfl, rfl, rfl⟩
    simp only [cleanupEls_cons, href, hin, runInner_append,
      runInner_pure fuel pre _ hpre, runInner_thrower_cons]
  · exact onAttrChanged_thrower fuel el ref eid kk s href hold

/-- Witness for `teardown_throw_propagates` at `stThrow`. -/
theorem teardown_throw_propagates_witness :
    wfSt stThrow ∧ alookup stThrow.removals 5 = some 0 ∧
    hGet stThrow.heap 0 = [] ++ ("a", .fn (.thrower 3)) :: [("b", .fn (.pure 4))] ∧
    innerAllPure [] = true ∧
    ((∃ s', cleanupEls 2 [5] stThrow = .exn (.userExn 3) s' ∧
      s'.events = stThrow.events ++ (innerIds []).map Ev.invoked ∧
      s'.removals = adel stThrow.removals 5 ∧
      s'.heap = stThrow.heap) ∧
    onAttrChanged 2 5 ("data-" ++ "a") none stThrow =
      .exn (.userExn 3) stThrow) :=
  ⟨by decide, rfl, rfl, rfl,
    teardown_throw_propagates 0 5 0 3 "a" [] [("b", .fn (.pure 4))] stThrow
      (by decide) rfl rfl rfl⟩

/-- C8: the registration gate applied to a setup routine's result is plain
JS truthiness, not a callable check.  A falsy result (undefined, null,
false, 0, "") causes no registry mutation at all — no entry is created and
no existing teardown of the pair is invoked or removed, the state gains only
the setup event.  A truthy result — function or plain (non-callable) object
alike — is stored as the pair's entry. -/
theorem setup_result_truthiness (fuel el sid : Nat) (k : String)
    (ret : JSVal) (s : St) :
    (truthy ret = false →
      applyPlugin (fuel + 1) el k sid ret s =
        .ok { s with events := s.events ++ [.setupRun sid] }) ∧
    (truthy ret = true → alookup s.removals el = none →
      applyPlugin (fuel + 1) el k sid ret s =
        .ok { s with
              removals := aset s.removals el s.nextRef,
              heap := aset s.heap s.nextRef [(k, ret)],
              nextRef := s.nextRef + 1,
              events := s.events ++ [.setupRun sid, .stored el k] }) := by
  constructor
  · intro hf
    show registerCleanup (fuel + 1) el k ret
      { s with events := s.events ++ [.setupRun sid] } = _
    rw [registerCleanup_falsy fuel el k ret _ hf]
  · intro ht hnone
    show registerCleanup (fuel + 1) el k ret
      { s with events := s.events ++ [.setupRun sid] } = _
    rw [registerCleanup_fresh fuel el k ret
      { s with events := s.events ++ [.setupRun sid] } ht hnone]
    simp

/-- Witness for `setup_result_truthiness`: the falsy value `0` causes no
mutation even though it is defined, and the truthy non-callable `obj` is
stored — exhibiting the truthiness (not callable-type) distinction. -/
theorem setup_result_truthiness_witness :
    (truthy (.num 0) = false ∧
      applyPlugin 1 2 "k2" 9 (.num 0) stReplace =
        .ok { stReplace with events := stReplace.events ++ [.setupRun 9] }) ∧
    (truthy .obj = true ∧ alookup stReplace.removals 2 = none ∧
      applyPlugin 1 2 "k2" 9 .obj stReplace =
        .ok { stReplace with
              removals := aset stReplace.removals 2 stReplace.nextRef,
              heap := aset stReplace.heap stReplace.nextRef [("k2", .obj)],
              nextRef := stReplace.nextRef + 1,
              events := stReplace.events ++ [.setupRun 9, .stored 2 "k2"] }) :=
  ⟨⟨rfl, (setup_result_truthiness 0 2 9 "k2" (.num 0) stReplace).1 rfl⟩,
   ⟨rfl, rfl, (setup_result_truthiness 0 2 9 "k2" .obj stReplace).2 rfl rfl⟩⟩

/-- C10: one invocation of the teardown callback produced by the on-cleanup
plugin's `apply` calls `beginBatch`, then `rx`, then `endBatch`, in that
order and exactly once each, when `rx` returns normally — the batch depth
ends where it started.  When `rx` throws, the exception propagates out of
the callback, `endBatch` is never invoked, and the batch opened by
`beginBatch` stays open (final depth one higher than initially). -/
theorem on_cleanup_callback_batches (s : SigSt) (e : Nat) :
    onCleanupCallback none s =
      ({ depth := s.depth,
         trace := s.trace ++ [.beganBatch, .ranRx, .endedBatch] }, none) ∧
    onCleanupCallback (some e) s =
      ({ depth := s.depth + 1,
         trace := s.trace ++ [.beganBatch, .ranRx] }, some e) := by
  constructor
  · simp [onCleanupCallback, execCbStmts, onCleanupBody, execCbStmt]
  · simp [onCleanupCallback, execCbStmts, onCleanupBody, execCbStmt]

/-! ### Teardown identifiers are only ever invoked out of the registry

The lemmas below show that every run of engine code preserves
well-formedness, never decreases the allocation counter, and — for an
identifier `i` occurring neither in the heap nor in the argument — never
makes `i`'s teardown run and never introduces `i` into the heap.  This is
the backbone of C2's "T1 is never invoked again". -/

theorem countIdVal_old_zero (i : Nat) (inner : Inner) (k : String) (w : JSVal)
    (hz : countIdInner i inner = 0) (h : alookup inner k = some w) :
    countIdVal i w = 0 := by
  induction inner with
  | nil => simp [alookup] at h
  | cons kv r ih =>
    obtain ⟨a, b⟩ := kv
    simp only [countIdInner] at hz
    by_cases ha : a = k
    · rw [alookup_cons, if_pos ha] at h
      cases h
      omega
    · rw [alookup_cons, if_neg ha] at h
      exact ih (by omega) h

theorem countIdInner_hGet_zero (i : Nat) (h : List (Nat × Inner)) (r : Nat)
    (hz : countIdHeap i h = 0) : countIdInner i (hGet h r) = 0 := by
  induction h with
  | nil => rfl
  | cons p hr ih =>
    obtain ⟨a, inner⟩ := p
    simp only [countIdHeap] at hz
    unfold hGet
    rw [alookup_cons]
    by_cases ha : a = r
    · rw [if_pos ha]
      show countIdInner i inner = 0
      omega
    · rw [if_neg ha]
      show countIdInner i (hGet hr r) = 0
      exact ih (by omega)

theorem countIdInner_aset_zero (i : Nat) (inner : Inner) (k : String)
    (v : JSVal) (hz : countIdInner i inner = 0) (hv : countIdVal i v = 0) :
    countIdInner i (aset inner k v) = 0 := by
  induction inner with
  | nil => simp [aset, countIdInner, hv]
  | cons kv r ih =>
    obtain ⟨a, b⟩ := kv
    simp only [countIdInner] at hz
    by_cases ha : a = k
    · rw [aset_cons, if_pos ha]
      simp only [countIdInner]
      omega
    · rw [aset_cons, if_neg ha]
      simp only [countIdInner]
      have := ih (by omega)
      omega

theorem countIdInner_adel_zero (i : Nat) (inner : Inner) (k : String)
    (hz : countIdInner i inner = 0) :
    countIdInner i (adel inner k) = 0 := by
  induction inner with
  | nil => rfl
  | cons kv r ih =>
    obtain ⟨a, b⟩ := kv
    simp only [countIdInner] at hz
    by_cases ha : a = k
    · rw [adel_cons, if_pos ha]
      omega
    · rw [adel_cons, if_neg ha]
      simp only [countIdInner]
      have := ih (by omega)
      omega

theorem countIdHeap_aset_zero (i : Nat) (h : List (Nat × Inner)) (r : Nat)
    (inner' : Inner) (hz : countIdHeap i h = 0)
    (hv : countIdInner i inner' = 0) :
    countIdHeap i (aset h r inner') = 0 := by
  induction h with
  | nil => simp [aset, countIdHeap, hv]
  | cons p hr ih =>
    obtain ⟨a, inner⟩ := p
    simp only [countIdHeap] at hz
    by_cases ha : a = r
    · rw [aset_cons, if_pos ha]
      simp only [countIdHeap]
      omega
    · rw [aset_cons, if_neg ha]
      simp only [countIdHeap]
      have := ih (by omega)
      omega

theorem countIdInner_aset_eq (i : Nat) (inner : Inner) (k : String)
    (v w : JSVal) (h : alookup inner k = some w) :
    countIdInner i (aset inner k v) + countIdVal i w
      = countIdInner i inner + countIdVal i v := by
  induction inner with
  | nil => simp [alookup] at h
  | cons kv r ih =>
    obtain ⟨a, b⟩ := kv
    by_cases ha : a = k
    · rw [alookup_cons, if_pos ha] at h
      cases h
      rw [aset_cons, if_pos ha]
      simp only [countIdInner]
      omega
    · rw [alookup_cons, if_neg ha] at h
      rw [aset_cons, if_neg ha]
      simp only [countIdInner]
      have := ih h
      omega

theorem countIdHeap_aset_eq (i : Nat) (h : List (Nat × Inner)) (r : Nat)
    (inner' w : Inner) (hlk : alookup h r = some w) :
    countIdHeap i (aset h r inner') + countIdInner i w
      = countIdHeap i h + countIdInner i inner' := by
  induction h with
  | nil => simp [alookup] at hlk
  | cons p hr ih =>
    obtain ⟨a, inner⟩ := p
    by_cases ha : a = r
    · rw [alookup_cons, if_pos ha] at hlk
      cases hlk
      rw [aset_cons, if_pos ha]
      simp only [countIdHeap]
      omega
    · rw [alookup_cons, if_neg ha] at hlk
      rw [aset_cons, if_neg ha]
      simp only [countIdHeap]
      have := ih hlk
      omega

theorem countIdVal_le_of_alookup (i : Nat) (inner : Inner) (k : String)
    (w : JSVal) (h : alookup inner k = some w) :
    countIdVal i w ≤ countIdInner i inner := by
  induction inner with
  | nil => simp [alookup] at h
  | cons kv r ih =>
    obtain ⟨a, b⟩ := kv
    by_cases ha : a = k
    · rw [alookup_cons, if_pos ha] at h
      cases h
      simp only [countIdInner]
      omega
    · rw [alookup_cons, if_neg ha] at h
      simp only [countIdInner]
      have := ih h
      omega

theorem countIdInner_le_of_alookup (i : Nat) (h : List (Nat × Inner))
    (r : Nat) (inner : Inner) (hlk : alookup h r = some inner) :
    countIdInner i inner ≤ countIdHeap i h := by
  induction h with
  | nil => simp [alookup] at hlk
  | cons p hr ih =>
    obtain ⟨a, w⟩ := p
    by_cases ha : a = r
    · rw [alookup_cons, if_pos ha] at hlk
      cases hlk
      simp only [countIdHeap]
      omega
    · rw [alookup_cons, if_neg ha] at hlk
      simp only [countIdHeap]
      have := ih hlk
      omega

theorem KeepSt_refl (i n : Nat) (s : St) : KeepSt i n s s :=
  ⟨le_refl _, id, fun _ hz => ⟨hz, rfl⟩⟩

theorem KeepSt_comp (i n1 n2 n : Nat) (s1 s2 s3 : St)
    (h1 : KeepSt i n1 s1 s2) (h2 : KeepSt i n2 s2 s3)
    (hn1 : n = 0 → n1 = 0) (hn2 : n = 0 → n2 = 0) :
    KeepSt i n s1 s3 := by
  refine ⟨le_trans h1.1 h2.1, fun hw => h2.2.1 (h1.2.1 hw), fun hn hz => ?_⟩
  obtain ⟨c1, e1⟩ := h1.2.2 (hn1 hn) hz
  obtain ⟨c2, e2⟩ := h2.2.2 (hn2 hn) c1
  exact ⟨c2, e2.trans e1⟩

theorem StepOk_weaken (i n1 n : Nat) (s : St) (r : Res)
    (h : StepOk i n1 s r) (hn1 : n = 0 → n1 = 0) : StepOk i n s r := by
  cases r with
  | ok s1 => exact ⟨h.1, h.2.1, fun hn hz => h.2.2 (hn1 hn) hz⟩
  | exn e s1 =>
    have h' : KeepSt i n1 s s1 := h
    exact ⟨h'.1, h'.2.1, fun hn hz => h'.2.2 (hn1 hn) hz⟩
  | out => exact trivial

theorem StepOk_after (i n1 n2 n : Nat) (s s1 : St) (r2 : Res)
    (h1 : KeepSt i n1 s s1) (h2 : StepOk i n2 s1 r2)
    (hn1 : n = 0 → n1 = 0) (hn2 : n = 0 → n2 = 0) :
    StepOk i n s r2 := by
  cases r2 with
  | ok s2 => exact KeepSt_comp i n1 n2 n s s1 s2 h1 h2 hn1 hn2
  | exn e s2 => exact KeepSt_comp i n1 n2 n s s1 s2 h1 h2 hn1 hn2
  | out => exact trivial

theorem nodup_fst_hGet (h : List (Nat × Inner)) (r : Nat)
    (hw4 : ∀ p ∈ h, (p.2.map Prod.fst).Nodup) :
    ((hGet h r).map Prod.fst).Nodup := by
  unfold hGet
  cases hlk : alookup h r with
  | none => simp
  | some inner =>
    show (inner.map Prod.fst).Nodup
    exact hw4 _ (alookup_mem _ _ _ hlk)

/-- Replacing one inner map's contents (with duplicate-free keys) preserves
well-formedness, for any events and any reference already in use. -/
theorem wf_heap_set (s : St) (ref : Nat) (inner' : Inner) (evs : List Ev)
    (hw : wfSt s) (hrefnx : ref < s.nextRef)
    (hnod : (inner'.map Prod.fst).Nodup) :
    wfSt { removals := s.removals, heap := aset s.heap ref inner',
           nextRef := s.nextRef, events := evs } := by
  obtain ⟨hw1, hw2, hw3, hw4, hw5, hw6⟩ := hw
  refine ⟨hw1, hw2, nodup_fst_aset _ _ _ hw3, ?_, hw5, ?_⟩
  · intro p hp
    rcases mem_aset _ _ _ _ hp with rfl | hp'
    · exact hnod
    · exact hw4 p hp'
  · intro p hp
    rcases mem_aset _ _ _ _ hp with rfl | hp'
    · exact hrefnx
    · exact hw6 p hp'

/-- Deleting an element from the outer map preserves well-formedness, for
any events. -/
theorem wf_removals_del (s : St) (el : Nat) (evs : List Ev) (hw : wfSt s) :
    wfSt { removals := adel s.removals el, heap := s.heap,
           nextRef := s.nextRef, events := evs } := by
  obtain ⟨hw1, hw2, hw3, hw4, hw5, hw6⟩ := hw
  refine ⟨((adel_sublist s.removals el).map Prod.fst).nodup hw1,
    ((adel_sublist s.removals el).map Prod.snd).nodup hw2, hw3, hw4, ?_, hw6⟩
  intro p hp
  exact hw5 p ((adel_sublist s.removals el).mem hp)

/-- Allocating a fresh inner map for an absent element preserves
well-formedness. -/
theorem wf_alloc (s : St) (el : Nat) (k : String) (v : JSVal) (evs : List Ev)
    (hw : wfSt s) (hnone : alookup s.removals el = none) :
    wfSt { removals := aset s.removals el s.nextRef,
           heap := aset s.heap s.nextRef [(k, v)],
           nextRef := s.nextRef + 1, events := evs } := by
  obtain ⟨hw1, hw2, hw3, hw4, hw5, hw6⟩ := hw
  have hel : el ∉ s.removals.map Prod.fst := (alookup_eq_none _ _).mp hnone
  have hremo : aset s.removals el s.nextRef = s.removals ++ [(el, s.nextRef)] :=
    aset_of_alookup_none _ _ _ hnone
  have hhnr : alookup s.heap s.nextRef = none := by
    rw [alookup_eq_none]
    intro hmem
    rcases List.mem_map.mp hmem with ⟨p, hp, hpe⟩
    exact absurd (hpe ▸ hw6 p hp) (lt_irrefl _)
  have hheap : aset s.heap s.nextRef [(k, v)] = s.heap ++ [(s.nextRef, [(k, v)])] :=
    aset_of_alookup_none _ _ _ hhnr
  refine ⟨?_, ?_, ?_, ?_, ?_, ?_⟩
  · rw [hremo, List.map_append]
    refine List.Nodup.append hw1 (by simp) ?_
    intro a ha hb
    simp only [List.map_cons, List.map_nil, List.mem_singleton] at hb
    exact hel (hb ▸ ha)
  · rw [hremo, List.map_append]
    refine List.Nodup.append hw2 (by simp) ?_
    intro a ha hb
    simp only [List.map_cons, List.map_nil, List.mem_singleton] at hb
    subst hb
    rcases List.mem_map.mp ha with ⟨p, hp, hpe⟩
    exact absurd (hpe ▸ hw5 p hp) (lt_irrefl _)
  · rw [hheap, List.map_append]
    refine List.Nodup.append hw3 (by simp) ?_
    intro a ha hb
    simp only [List.map_cons, List.map_nil, List.mem_singleton] at hb
    subst hb
    rcases List.mem_map.mp ha with ⟨p, hp, hpe⟩
    exact absurd (hpe ▸ hw6 p hp) (lt_irrefl _)
  · intro p hp
    rw [hheap] at hp
    rcases List.mem_append.mp hp with hp' | hp'
    · exact hw4 p hp'
    · rcases List.mem_singleton.mp hp' with rfl
      simp
  · intro p hp
    rw [hremo] at hp
    rcases List.mem_append.mp hp with hp' | hp'
    · exact Nat.lt_succ_of_lt (hw5 p hp')
    · rcases List.mem_singleton.mp hp' with rfl
      exact Nat.lt_succ_self _
  · intro p hp
    rw [hheap] at hp
    rcases List.mem_append.mp hp with hp' | hp'
    · exact Nat.lt_succ_of_lt (hw6 p hp')
    · rcases List.mem_singleton.mp hp' with rfl
      exact Nat.lt_succ_self _

/-- The central invariant: any call — invoking a value, running a teardown
body, or running the registration block — keeps the allocation counter
monotone, preserves well-formedness, and, for an identifier absent from both
the argument and the heap, neither invokes that identifier's teardown nor
introduces it into the heap. -/
theorem interp_step (i : Nat) : ∀ (fuel : Nat) (c : Call) (s : St),
    StepOk i (callCount i c) s (interp fuel c s) := by
  intro fuel
  induction fuel with
  | zero =>
    intro c s
    exact True.intro
  | succ fuel ih =>
    intro c s
    cases c with
    | val v =>
      cases v with
      | fn t => exact ih (.td t) s
      | undef => exact KeepSt_refl _ _ _
      | null => exact KeepSt_refl _ _ _
      | bool b => exact KeepSt_refl _ _ _
      | num n => exact KeepSt_refl _ _ _
      | str st => exact KeepSt_refl _ _ _
      | obj => exact KeepSt_refl _ _ _
    | td t =>
      cases t with
      | pure j =>
        show KeepSt i (countIdTd i (.pure j)) s
          { s with events := s.events ++ [.invoked j] }
        refine ⟨le_refl _, fun hw => hw, fun hn hz => ⟨hz, ?_⟩⟩
        have hij : j ≠ i := by
          intro he
          simp only [countIdTd, if_pos he] at hn
          exact Nat.one_ne_zero hn
        show (s.events ++ [Ev.invoked j]).count (Ev.invoked i) = evCount i s
        rw [List.count_append]
        simp [evCount, List.count_cons, hij]
      | thrower j => exact KeepSt_refl _ _ _
      | reg el k v => exact ih (.rcg el k v) s
    | rcg el k v =>
      show StepOk i (countIdVal i v) s (interp (fuel + 1) (.rcg el k v) s)
      cases ht : truthy v with
      | false =>
        simp only [interp, ht]
        rw [if_neg (by simp)]
        exact KeepSt_refl _ _ _
      | true =>
        cases href : alookup s.removals el with
        | none =>
          rw [show interp (fuel + 1) (.rcg el k v) s = _ from
            registerCleanup_fresh fuel el k v s ht href]
          have hk : KeepSt i (countIdVal i v) s
              { removals := aset s.removals el s.nextRef,
                heap := aset s.heap s.nextRef [(k, v)],
                nextRef := s.nextRef + 1,
                events := s.events ++ [Ev.stored el k] } := by
            refine ⟨Nat.le_succ _, fun hw => ?_, fun hn hz => ⟨?_, ?_⟩⟩
            · exact wf_alloc s el k v _ hw href
            · exact countIdHeap_aset_zero i s.heap s.nextRef [(k, v)] hz
                (by simp [countIdInner, hn])
            · show (s.events ++ [Ev.stored el k]).count (Ev.invoked i) = evCount i s
              rw [List.count_append]
              simp [evCount]
          exact hk
        | some ref =>
          cases hold : alookup (hGet s.heap ref) k with
          | none =>
            rw [show interp (fuel + 1) (.rcg el k v) s = _ from
              registerCleanup_nokey fuel el ref k v s ht href hold]
            have hk : KeepSt i (countIdVal i v) s
                { removals := s.removals,
                  heap := aset s.heap ref (aset (hGet s.heap ref) k v),
                  nextRef := s.nextRef,
                  events := s.events ++ [Ev.stored el k] } := by
              refine ⟨le_refl _, fun hw => ?_, fun hn hz => ⟨?_, ?_⟩⟩
              · have hrefnx : ref < s.nextRef :=
                  hw.2.2.2.2.1 _ (alookup_mem _ _ _ href)
                exact wf_heap_set s ref _ _ hw hrefnx
                  (nodup_fst_aset _ _ _ (nodup_fst_hGet _ _ hw.2.2.2.1))
              · exact countIdHeap_aset_zero i s.heap ref _ hz
                  (countIdInner_aset_zero i _ k v
                    (countIdInner_hGet_zero i s.heap ref hz) hn)
              · show (s.events ++ [Ev.stored el k]).count (Ev.invoked i) = evCount i s
                rw [List.count_append]
                simp [evCount]
            exact hk
          | some old =>
            rw [show interp (fuel + 1) (.rcg el k v) s = _ from
              registerCleanup_oldsome fuel el ref k v old s ht href hold]
            have h1 := ih (.val old) s
            cases hrun : interp fuel (.val old) s with
            | ok s1 =>
              rw [hrun] at h1
              have h1' : KeepSt i (countIdVal i old) s s1 := h1
              have hk : KeepSt i (countIdVal i v) s
                  { removals := s1.removals,
                    heap := aset s1.heap ref (aset (hGet s1.heap ref) k v),
                    nextRef := s1.nextRef,
                    events := s1.events ++ [Ev.stored el k] } := by
                refine ⟨h1'.1, fun hw => ?_, fun hn hz => ?_⟩
                · have hw1 := h1'.2.1 hw
                  have hrefnx : ref < s1.nextRef :=
                    lt_of_lt_of_le (hw.2.2.2.2.1 _ (alookup_mem _ _ _ href)) h1'.1
                  exact wf_heap_set s1 ref _ _ hw1 hrefnx
                    (nodup_fst_aset _ _ _ (nodup_fst_hGet _ _ hw1.2.2.2.1))
                · have hzold : countIdVal i old = 0 :=
                    countIdVal_old_zero i _ k old
                      (countIdInner_hGet_zero i s.heap ref hz) hold
                  obtain ⟨hz1, he1⟩ := h1'.2.2 hzold hz
                  refine ⟨countIdHeap_aset_zero i s1.heap ref _ hz1
                    (countIdInner_aset_zero i _ k v
                      (countIdInner_hGet_zero i s1.heap ref hz1) hn), ?_⟩
                  show (s1.events ++ [Ev.stored el k]).count (Ev.invoked i) = evCount i s
                  rw [List.count_append]
                  have hzero : ([Ev.stored el k]).count (Ev.invoked i) = 0 := by simp
                  rw [hzero, Nat.add_zero]
                  exact he1
              exact hk
            | exn ex s1 =>
              rw [hrun] at h1
              have h1' : KeepSt i (countIdVal i old) s s1 := h1
              have hk : KeepSt i (countIdVal i v) s s1 :=
                ⟨h1'.1, h1'.2.1, fun hn hz =>
                  h1'.2.2 (countIdVal_old_zero i _ k old
                    (countIdInner_hGet_zero i s.heap ref hz) hold) hz⟩
              exact hk
            | out => exact True.intro

theorem invokeVal_step (i fuel : Nat) (v : JSVal) (s : St) :
    StepOk i (countIdVal i v) s (invokeVal fuel v s) :=
  interp_step i fuel (.val v) s

theorem registerCleanup_step (i fuel el : Nat) (k : String) (v : JSVal)
    (s : St) : StepOk i (countIdVal i v) s (registerCleanup fuel el k v s) :=
  interp_step i fuel (.rcg el k v) s

theorem runInner_step (i fuel : Nat) : ∀ (inner : Inner) (s : St),
    StepOk i (countIdInner i inner) s (runInner fuel inner s) := by
  intro inner
  induction inner with
  | nil =>
    intro s
    exact KeepSt_refl _ _ _
  | cons kv rest ih =>
    intro s
    obtain ⟨k, v⟩ := kv
    have h1 := invokeVal_step i fuel v s
    show StepOk i (countIdInner i ((k, v) :: rest)) s
      (match invokeVal fuel v s with
       | Res.ok s' => runInner fuel rest s'
       | r => r)
    cases hrun : invokeVal fuel v s with
    | ok s1 =>
      rw [hrun] at h1
      have h1' : KeepSt i (countIdVal i v) s s1 := h1
      exact StepOk_after i (countIdVal i v) (countIdInner i rest) _ s s1 _
        h1' (ih s1)
        (fun hn => by simp [countIdInner] at hn; omega)
        (fun hn => by simp [countIdInner] at hn; omega)
    | exn e s1 =>
      rw [hrun] at h1
      have h1' : KeepSt i (countIdVal i v) s s1 := h1
      have hk : KeepSt i (countIdInner i ((k, v) :: rest)) s s1 :=
        ⟨h1'.1, h1'.2.1, fun hn hz =>
          h1'.2.2 (by simp [countIdInner] at hn; omega) hz⟩
      exact hk
    | out => exact True.intro

theorem cleanupEls_step (i fuel : Nat) : ∀ (els : List Nat) (s : St),
    StepOk i 0 s (cleanupEls fuel els s) := by
  intro els
  induction els with
  | nil =>
    intro s
    exact KeepSt_refl _ _ _
  | cons el rest ih =>
    intro s
    rw [cleanupEls_cons]
    cases href : alookup s.removals el with
    | none => exact ih s
    | some ref =>
      show StepOk i 0 s
        (match runInner fuel (hGet s.heap ref)
            { s with removals := adel s.removals el } with
         | Res.ok s2 => cleanupEls fuel rest { s2 with heap := aset s2.heap ref [] }
         | r => r)
      have hA : KeepSt i 0 s { s with removals := adel s.removals el } :=
        ⟨le_refl _, fun hw => wf_removals_del s el _ hw, fun _ hz => ⟨hz, rfl⟩⟩
      have h1 := runInner_step i fuel (hGet s.heap ref)
        { s with removals := adel s.removals el }
      cases hrun : runInner fuel (hGet s.heap ref)
          { s with removals := adel s.removals el } with
      | ok s2 =>
        rw [hrun] at h1
        have h1' : KeepSt i (countIdInner i (hGet s.heap ref)) _ s2 := h1
        have hs2 : KeepSt i 0 s s2 := by
          refine ⟨le_trans hA.1 h1'.1, fun hw => h1'.2.1 (hA.2.1 hw),
            fun _ hz => ?_⟩
          exact h1'.2.2 (countIdInner_hGet_zero i s.heap ref hz) hz
        have hs3 : KeepSt i 0 s { s2 with heap := aset s2.heap ref [] } := by
          refine ⟨hs2.1, fun hw => ?_, fun _ hz => ?_⟩
          · have hw2 := hs2.2.1 hw
            have hrefnx : ref < s2.nextRef :=
              lt_of_lt_of_le (hw.2.2.2.2.1 _ (alookup_mem _ _ _ href)) hs2.1
            exact wf_heap_set s2 ref [] _ hw2 hrefnx (by simp)
          · obtain ⟨c2, e2⟩ := hs2.2.2 rfl hz
            exact ⟨countIdHeap_aset_zero i s2.heap ref [] c2 rfl, e2⟩
        exact StepOk_after i 0 0 0 s _ _ hs3 (ih _) (fun _ => rfl) (fun _ => rfl)
      | exn e s2 =>
        rw [hrun] at h1
        have h1' : KeepSt i (countIdInner i (hGet s.heap ref)) _ s2 := h1
        have hk : KeepSt i 0 s s2 := by
          refine ⟨le_trans hA.1 h1'.1, fun hw => h1'.2.1 (hA.2.1 hw),
            fun _ hz => ?_⟩
          exact h1'.2.2 (countIdInner_hGet_zero i s.heap ref hz) hz
        exact hk
      | out => exact True.intro

theorem onAttrChanged_step (i fuel target : Nat) (name : String)
    (value : Option String) (s : St) :
    StepOk i 0 s (onAttrChanged fuel target name value s) := by
  unfold onAttrChanged
  by_cases hsw : strStartsWith name "data-" = true
  · rw [if_pos hsw]
    cases value with
    | some v => exact KeepSt_refl _ _ _
    | none =>
      cases href : alookup s.removals target with
      | none => exact KeepSt_refl _ _ _
      | some ref =>
        show StepOk i 0 s
          (match alookup (hGet s.heap ref) (strDrop name 5) with
           | some old =>
             match invokeVal fuel old s with
             | Res.ok s' =>
               .ok { s' with
                     heap := aset s'.heap ref (adel (hGet s'.heap ref) (strDrop name 5)) }
             | r => r
           | none =>
             .ok { s with
                   heap := aset s.heap ref (adel (hGet s.heap ref) (strDrop name 5)) })
        cases hold : alookup (hGet s.heap ref) (strDrop name 5) with
        | none =>
          have hk : KeepSt i 0 s
              { s with
                heap := aset s.heap ref (adel (hGet s.heap ref) (strDrop name 5)) } := by
            refine ⟨le_refl _, fun hw => ?_, fun _ hz => ⟨?_, rfl⟩⟩
            · have hrefnx : ref < s.nextRef :=
                hw.2.2.2.2.1 _ (alookup_mem _ _ _ href)
              exact wf_heap_set s ref _ _ hw hrefnx
                (((adel_sublist _ _).map Prod.fst).nodup (nodup_fst_hGet _ _ hw.2.2.2.1))
            · exact countIdHeap_aset_zero i s.heap ref _ hz
                (countIdInner_adel_zero i _ _ (countIdInner_hGet_zero i s.heap ref hz))
          exact hk
        | some old =>
          show StepOk i 0 s
            (match invokeVal fuel old s with
             | Res.ok s' =>
               .ok { s' with
                     heap := aset s'.heap ref (adel (hGet s'.heap ref) (strDrop name 5)) }
             | r => r)
          have h1 := invokeVal_step i fuel old s
          cases hrun : invokeVal fuel old s with
          | ok s1 =>
            rw [hrun] at h1
            have h1' : KeepSt i (countIdVal i old) s s1 := h1
            have hk : KeepSt i 0 s
                { s1 with
                  heap := aset s1.heap ref (adel (hGet s1.heap ref) (strDrop name 5)) } := by
              refine ⟨h1'.1, fun hw => ?_, fun _ hz => ?_⟩
              · have hw1 := h1'.2.1 hw
                have hrefnx : ref < s1.nextRef :=
                  lt_of_lt_of_le (hw.2.2.2.2.1 _ (alookup_mem _ _ _ href)) h1'.1
                exact wf_heap_set s1 ref _ _ hw1 hrefnx
                  (((adel_sublist _ _).map Prod.fst).nodup (nodup_fst_hGet _ _ hw1.2.2.2.1))
              · have hzold : countIdVal i old = 0 :=
                  countIdVal_old_zero i _ _ old
                    (countIdInner_hGet_zero i s.heap ref hz) hold
                obtain ⟨c1, e1⟩ := h1'.2.2 hzold hz
                exact ⟨countIdHeap_aset_zero i s1.heap ref _ c1
                  (countIdInner_adel_zero i _ _ (countIdInner_hGet_zero i s1.heap ref c1)), e1⟩
            exact hk
          | exn e s1 =>
            rw [hrun] at h1
            have h1' : KeepSt i (countIdVal i old) s s1 := h1
            have hk : KeepSt i 0 s s1 :=
              ⟨h1'.1, h1'.2.1, fun _ hz =>
                h1'.2.2 (countIdVal_old_zero i _ _ old
                  (countIdInner_hGet_zero i s.heap ref hz) hold) hz⟩
            exact hk
          | out => exact True.intro
  · rw [if_neg hsw]
    exact KeepSt_refl _ _ _

theorem applyPlugin_step (i fuel el : Nat) (k : String) (sid : Nat)
    (ret : JSVal) (s : St) :
    StepOk i (countIdVal i ret) s (applyPlugin fuel el k sid ret s) := by
  have hA : KeepSt i 0 s { s with events := s.events ++ [.setupRun sid] } := by
    refine ⟨le_refl _, fun hw => hw, fun _ hz => ⟨hz, ?_⟩⟩
    show (s.events ++ [Ev.setupRun sid]).count (Ev.invoked i) = evCount i s
    rw [List.count_append]
    simp [evCount]
  exact StepOk_after i 0 (countIdVal i ret) (countIdVal i ret) s _ _ hA
    (registerCleanup_step i fuel el k ret _) (fun _ => rfl) (fun h => h)

theorem onChildListRemoved_step (i fuel : Nat) (n : RemovedNode) (s : St) :
    StepOk i 0 s (onChildListRemoved fuel n s) := by
  unfold onChildListRemoved
  have h1 := cleanupEls_step i fuel [n.id] s
  cases hrun : cleanupEls fuel [n.id] s with
  | ok s1 =>
    rw [hrun] at h1
    have h1' : KeepSt i 0 s s1 := h1
    exact StepOk_after i 0 0 0 s s1 _ h1' (cleanupEls_step i fuel n.descs s1)
      (fun _ => rfl) (fun _ => rfl)
  | exn e s1 =>
    rw [hrun] at h1
    exact h1
  | out => exact True.intro

theorem runOp_step (i fuel : Nat) (op : Op) (s : St) :
    StepOk i (countIdOp i op) s (runOp fuel op s) := by
  cases op with
  | applyAttr el k sid ret => exact applyPlugin_step i fuel el k sid ret s
  | removeSubtree n => exact onChildListRemoved_step i fuel n s
  | attrChanged tg nm v => exact onAttrChanged_step i fuel tg nm v s
  | morphRemove b n =>
    cases b with
    | true => exact KeepSt_refl _ _ _
    | false => exact onChildListRemoved_step i fuel n s

theorem runOps_step (i fuel : Nat) : ∀ (ops : List Op) (s : St),
    StepOk i (countIdOps i ops) s (runOps fuel ops s) := by
  intro ops
  induction ops with
  | nil =>
    intro s
    exact KeepSt_refl _ _ _
  | cons op rest ih =>
    intro s
    have h1 := runOp_step i fuel op s
    show StepOk i (countIdOps i (op :: rest)) s
      (match runOp fuel op s with
       | Res.ok s' => runOps fuel rest s'
       | r => r)
    cases hrun : runOp fuel op s with
    | ok s1 =>
      rw [hrun] at h1
      have h1' : KeepSt i (countIdOp i op) s s1 := h1
      exact StepOk_after i (countIdOp i op) (countIdOps i rest) _ s s1 _ h1'
        (ih s1)
        (fun hn => by simp [countIdOps] at hn; omega)
        (fun hn => by simp [countIdOps] at hn; omega)
    | exn e s1 =>
      rw [hrun] at h1
      have h1' : KeepSt i (countIdOp i op) s s1 := h1
      have hk : KeepSt i (countIdOps i (op :: rest)) s s1 :=
        ⟨h1'.1, h1'.2.1, fun hn hz =>
          h1'.2.2 (by simp [countIdOps] at hn; omega) hz⟩
      exact hk
    | out => exact True.intro

/-- C2: registering a second teardown `v2` for a pair (e, kk) that already
holds the plain teardown `i1` invokes the old teardown exactly once,
synchronously, before the new one is stored (the appended events are exactly
`invoked i1` followed by `stored e kk`); afterwards the pair holds `v2` and
the inner map's keys stay duplicate-free (at most one teardown per pair);
and if `i1` occurred nowhere else in the registry, then no later sequence of
operations that does not itself re-introduce `i1` ever invokes it again. -/
theorem replace_invokes_old_once
    (fuel e ref i1 : Nat) (kk : String) (v2 : JSVal) (s : St)
    (hw : wfSt s)
    (href : alookup s.removals e = some ref)
    (hold : alookup (hGet s.heap ref) kk = some (.fn (.pure i1)))
    (ht : truthy v2 = true) :
    ∃ s', registerCleanup (fuel + 3) e kk v2 s = .ok s' ∧
      s'.events = s.events ++ [.invoked i1, .stored e kk] ∧
      alookup (hGet s'.heap ref) kk = some v2 ∧
      ((hGet s'.heap ref).map Prod.fst).Nodup ∧
      (countIdHeap i1 s.heap = 1 → countIdVal i1 v2 = 0 →
        ∀ (fuel2 : Nat) (ops : List Op) (s2 : St), countIdOps i1 ops = 0 →
          (runOps fuel2 ops s' = .ok s2 ∨ ∃ ex, runOps fuel2 ops s' = .exn ex s2) →
          s2.events.count (Ev.invoked i1) = s'.events.count (Ev.invoked i1)) := by
  have hsome : alookup s.heap ref = some (hGet s.heap ref) := by
    unfold hGet
    cases hlk : alookup s.heap ref with
    | none =>
      rw [show hGet s.heap ref = [] by unfold hGet; rw [hlk]; rfl] at hold
      simp [alookup] at hold
    | some inner => rfl
  refine ⟨{ s with
            heap := aset s.heap ref (aset (hGet s.heap ref) kk v2),
            events := s.events ++ [.invoked i1, .stored e kk] },
    registerCleanup_replace_pure fuel e ref i1 kk v2 s href hold ht,
    rfl, ?_, ?_, ?_⟩
  · rw [hGet_aset_self]
    exact alookup_aset_self _ _ _
  · rw [hGet_aset_self]
    exact nodup_fst_aset _ _ _ (nodup_fst_hGet _ _ hw.2.2.2.1)
  · intro hcnt hv2 fuel2 ops s2 hops hrun
    have cv : countIdVal i1 (JSVal.fn (Td.pure i1)) = 1 := by
      simp [countIdVal, countIdTd]
    have eq1 := countIdHeap_aset_eq i1 s.heap ref
      (aset (hGet s.heap ref) kk v2) (hGet s.heap ref) hsome
    have eq2 := countIdInner_aset_eq i1 (hGet s.heap ref) kk v2
      (.fn (.pure i1)) hold
    have bound := countIdInner_le_of_alookup i1 s.heap ref _ hsome
    have hz' : countIdHeap i1 (aset s.heap ref (aset (hGet s.heap ref) kk v2)) = 0 := by
      omega
    have hstep := runOps_step i1 fuel2 ops
      { s with
        heap := aset s.heap ref (aset (hGet s.heap ref) kk v2),
        events := s.events ++ [.invoked i1, .stored e kk] }
    rcases hrun with hok | ⟨ex, hexn⟩
    · rw [hok] at hstep
      have hk : KeepSt i1 (countIdOps i1 ops) _ s2 := hstep
      exact (hk.2.2 hops hz').2
    · rw [hexn] at hstep
      have hk : KeepSt i1 (countIdOps i1 ops) _ s2 := hstep
      exact (hk.2.2 hops hz').2

/-- Witness for `replace_invokes_old_once` at `stReplace`: teardown 7 is
registered for (1, "k") and teardown 8 replaces it. -/
theorem replace_invokes_old_once_witness :
    wfSt stReplace ∧ alookup stReplace.removals 1 = some 0 ∧
    alookup (hGet stReplace.heap 0) "k" = some (.fn (.pure 7)) ∧
    truthy (.fn (.pure 8)) = true ∧
    ∃ s', registerCleanup 3 1 "k" (.fn (.pure 8)) stReplace = .ok s' ∧
      s'.events = stReplace.events ++ [.invoked 7, .stored 1 "k"] ∧
      alookup (hGet s'.heap 0) "k" = some (.fn (.pure 8)) ∧
      ((hGet s'.heap 0).map Prod.fst).Nodup ∧
      (countIdHeap 7 stReplace.heap = 1 → countIdVal 7 (.fn (.pure 8)) = 0 →
        ∀ (fuel2 : Nat) (ops : List Op) (s2 : St), countIdOps 7 ops = 0 →
          (runOps fuel2 ops s' = .ok s2 ∨ ∃ ex, runOps fuel2 ops s' = .exn ex s2) →
          s2.events.count (Ev.invoked 7) = s'.events.count (Ev.invoked 7)) :=
  ⟨by decide, rfl, rfl, rfl,
    replace_invokes_old_once 0 1 0 7 "k" (.fn (.pure 8)) stReplace
      (by decide) rfl rfl rfl⟩

end DatastarCleanup
